import Mathlib

/-!
Verification of the reactive dependency-tracking core of this repository
(Vue 2 observer): Dep, Watcher, defineReactive, the array-method wrappers
and the deep traversal, shallowly embedded as executable Lean definitions.

Watchers and Deps are identified by their numeric ids (`uid` counters in
the source); JS `Set`s that are only used through `has`/`add`/`clear` are
modelled as lists appended to on `add`.
-/

namespace VueReactivity

/-- JavaScript values as the reactivity core sees them: `undefined`,
numbers (with `NaN` kept separate because `NaN !== NaN`), and object
references identified by a heap id. -/
inductive JSVal : Type
  | undef : JSVal
  | num : Int → JSVal
  | nan : JSVal
  | ref : Nat → JSVal
  deriving DecidableEq, Repr

/-- JavaScript strict equality `===` on the modelled values: reference
identity for objects, and `NaN === NaN` is `false`. -/
def jsEq : JSVal → JSVal → Bool
  | .undef, .undef => true
  | .num n, .num m => n == m
  | .ref i, .ref j => i == j
  | _, _ => false

/-- Source `isObject` from the util layer: a non-null value of type `object`,
i.e. a reference. -/
def isObject : JSVal → Bool
  | .ref _ => true
  | _ => false

/-- Per-watcher state of `class Watcher` (src/unnamed/part_004):
`deps`/`depIds` hold the previous evaluation's dep ids, `newDeps` and
`newDepIds` the ones collected during the current evaluation.  `evalCount`
and `cbCount` are ghost counters recording how often the evaluation
function (`this.getter`) and the result callback (`this.cb`) have run. -/
structure W : Type where
  deps : List Nat := []
  newDeps : List Nat := []
  depIds : List Nat := []
  newDepIds : List Nat := []
  active : Bool := true
  dirty : Bool := false
  lazy : Bool := false
  sync : Bool := false
  deep : Bool := false
  user : Bool := false
  value : JSVal := .undef
  evalCount : Nat := 0
  cbCount : Nat := 0
  deriving DecidableEq, Repr

/-- Global state of the dependency-tracking machine: the watcher table
(indexed by watcher id), every Dep's subscriber list `subs` (indexed by
dep id, holding watcher ids in push order), the evaluation stack
`targetStack` together with the derived `Dep.target`, the scheduler's
pending queue, the single vm's `_watchers` list, and a ghost counter for
`handleError` invocations. -/
structure Machine : Type where
  ws : Nat → W
  subs : Nat → List Nat
  targetStack : List (Option Nat) := []
  target : Option Nat := none
  queue : List Nat := []
  hasQ : Nat → Bool := fun _ => false
  vmWatchers : List Nat := []
  isBeingDestroyed : Bool := false
  handledErrors : Nat := 0

/-- Replace one watcher's state in the table. -/
def setW (m : Machine) (t : Nat) (w : W) : Machine :=
  { m with ws := fun x => if x = t then w else m.ws x }

/-- Source `Dep.addSub` (dep.js): push the watcher onto the dep's subscriber
list. -/
def addSub (m : Machine) (d t : Nat) : Machine :=
  { m with subs := fun x => if x = d then m.subs x ++ [t] else m.subs x }

/-- Source `Dep.removeSub` (dep.js), through `remove` from the shared util layer
(not under src/).  Modelled from the spec: removal is a no-op when absent;
the JS helper splices out the first occurrence, which `List.erase`
matches. -/
def removeSub (m : Machine) (d t : Nat) : Machine :=
  { m with subs := fun x => if x = d then (m.subs x).erase t else m.subs x }

/-- Source `Watcher.addDep`: record the dep in the current pass (`newDepIds`,
`newDeps`) on first encounter, and subscribe to it only when it was not
already held from the previous pass (`depIds`). -/
def addDep (m : Machine) (t d : Nat) : Machine :=
  let w := m.ws t
  if d ∈ w.newDepIds then m
  else
    let m1 := setW m t
      { w with newDepIds := w.newDepIds ++ [d], newDeps := w.newDeps ++ [d] }
    if d ∈ w.depIds then m1 else addSub m1 d t

/-- Source `Dep.depend`: collection is inert unless an evaluation is active
(`Dep.target` non-null). -/
def depend (m : Machine) (d : Nat) : Machine :=
  match m.target with
  | some t => addDep m t d
  | none => m

/-- Source `pushTarget` (dep.js). -/
def pushTarget (m : Machine) (t : Option Nat) : Machine :=
  { m with targetStack := m.targetStack ++ [t], target := t }

/-- Source `popTarget` (dep.js): `Dep.target` becomes the new last stack entry,
or null when the stack empties. -/
def popTarget (m : Machine) : Machine :=
  { m with targetStack := m.targetStack.dropLast,
           target := (m.targetStack.dropLast.getLast?).getD none }

/-- The removal loop of `Watcher.cleanupDeps`: `while (i--)` walks `deps`
from the last element down, unsubscribing from every dep absent from
`newDepIds`. -/
def cleanupRemove (m : Machine) (t : Nat) (ds : List Nat) : Machine :=
  ds.foldl
    (fun acc d => if d ∈ (acc.ws t).newDepIds then acc else removeSub acc d t) m

/-- Source `Watcher.cleanupDeps`: drop stale subscriptions, then swap the old and
new dep sets and clear the new ones. -/
def cleanupDeps (m : Machine) (t : Nat) : Machine :=
  let m1 := cleanupRemove m t (m.ws t).deps.reverse
  let w := m1.ws t
  setW m1 t { w with depIds := w.newDepIds, newDepIds := [],
                     deps := w.newDeps, newDeps := [] }

/-- Result of an evaluation: returned normally, or the exception
propagated to the caller. -/
inductive GetRes : Type
  | ok : JSVal → GetRes
  | thrown : GetRes
  deriving DecidableEq, Repr

/-- Source `Watcher.get`: push self as `Dep.target`, run the getter (abstracted
by the list of dep ids whose `depend()` it fires, whether it throws, and
the value it returns), then in the `finally` block run the deep traversal
(a no-op when the value stayed `undefined` because of a throw), pop the
target stack, and reconcile the dep sets.  A `user` watcher's getter error
is routed to `handleError`; a non-user error propagates (`GetRes.thrown`)
after the `finally` block has run. -/
def wget (m : Machine) (t : Nat) (reads : List Nat) (throws : Bool)
    (gv : JSVal) (deepReads : List Nat) : Machine × GetRes :=
  let m1 := pushTarget m (some t)
  let m2 := setW m1 t { m1.ws t with evalCount := (m1.ws t).evalCount + 1 }
  let m3 := reads.foldl depend m2
  let m4 := if throws && (m3.ws t).user then
      { m3 with handledErrors := m3.handledErrors + 1 } else m3
  let value : JSVal := if throws then .undef else gv
  let m5 := if (m4.ws t).deep && !throws then deepReads.foldl depend m4 else m4
  let m6 := cleanupDeps (popTarget m5) t
  (m6, if throws && !(m6.ws t).user then .thrown else .ok value)

/-- Source `Watcher.run`: a no-op when inactive; otherwise re-evaluate and invoke
the callback when the value changed by identity, is an object, or the
watcher is deep.  The callback invocation is ghost-counted; a `user`
callback's error is routed to `handleError`, a non-user one propagates. -/
def run (m : Machine) (t : Nat) (reads : List Nat) (throws : Bool)
    (gv : JSVal) (deepReads : List Nat) (cbThrows : Bool) : Machine × GetRes :=
  if (m.ws t).active then
    match wget m t reads throws gv deepReads with
    | (m1, .thrown) => (m1, .thrown)
    | (m1, .ok value) =>
      let w := m1.ws t
      if !(jsEq value w.value) || isObject value || w.deep then
        let m2 := setW m1 t { w with value := value, cbCount := w.cbCount + 1 }
        let m3 := if cbThrows && w.user then
            { m2 with handledErrors := m2.handledErrors + 1 } else m2
        (m3, if cbThrows && !w.user then .thrown else .ok .undef)
      else (m1, .ok .undef)
  else (m, .ok .undef)

/-- Source `queueWatcher` (scheduler module, not under src/).  Modelled from the
spec (§4.4): a watcher already marked queued is skipped, otherwise it is
marked and inserted into the pending list at its ascending-id position. -/
def queueWatcher (m : Machine) (t : Nat) : Machine :=
  if m.hasQ t then m
  else { m with hasQ := fun x => if x = t then true else m.hasQ x,
                queue := m.queue.orderedInsert (· ≤ ·) t }

/-- Which branch `Watcher.update` took. -/
inductive UpdPath : Type
  | markedDirty | ranSync | queuedAsync
  deriving DecidableEq, Repr

/-- Source `Watcher.update`: lazy watchers only mark themselves dirty; sync
watchers run immediately; all others go through the scheduler queue.  The
evaluation-behavior arguments are only consulted on the sync path. -/
def update (m : Machine) (t : Nat) (reads : List Nat) (throws : Bool)
    (gv : JSVal) (deepReads : List Nat) (cbThrows : Bool) :
    Machine × UpdPath :=
  let w := m.ws t
  if w.lazy then (setW m t { w with dirty := true }, .markedDirty)
  else if w.sync then
    ((run m t reads throws gv deepReads cbThrows).1, .ranSync)
  else (queueWatcher m t, .queuedAsync)

/-- Source `Watcher.evaluate` (lazy watchers only): `this.value = this.get();
this.dirty = false`.  When `get` throws, neither assignment runs and the
exception propagates. -/
def evaluate (m : Machine) (t : Nat) (reads : List Nat) (throws : Bool)
    (gv : JSVal) (deepReads : List Nat) : Machine × GetRes :=
  match wget m t reads throws gv deepReads with
  | (m1, .thrown) => (m1, .thrown)
  | (m1, .ok v) =>
    (setW m1 t { m1.ws t with value := v, dirty := false }, .ok v)

/-- Source `Watcher.depend`: `while (i--) this.deps[i].depend()` — re-register
every held dep against whatever watcher is currently `Dep.target`. -/
def wdepend (m : Machine) (t : Nat) : Machine :=
  (m.ws t).deps.reverse.foldl depend m

/-- Source `computedGetter` (state.js): evaluate when dirty, then chain this
watcher's deps to the active outer target, and return the cached value. -/
def computedGetter (m : Machine) (t : Nat) (reads : List Nat)
    (throws : Bool) (gv : JSVal) (deepReads : List Nat) :
    Machine × GetRes :=
  match (if (m.ws t).dirty then evaluate m t reads throws gv deepReads
         else (m, .ok .undef)) with
  | (m1, .thrown) => (m1, .thrown)
  | (m1, .ok _) =>
    let m2 := if m1.target.isSome then wdepend m1 t else m1
    (m2, .ok ((m2.ws t).value))

/-- Source `Watcher.teardown`: when active, remove self from the vm's watcher
list (unless the vm is being destroyed), unsubscribe from every held dep
(`while (i--)` walks `deps` backwards), and deactivate. -/
def teardown (m : Machine) (t : Nat) : Machine :=
  if (m.ws t).active then
    let m1 := if !m.isBeingDestroyed then
        { m with vmWatchers := m.vmWatchers.erase t } else m
    let m2 := (m1.ws t).deps.reverse.foldl (fun acc d => removeSub acc d t) m1
    setW m2 t { m2.ws t with active := false }
  else m

/-- Source `Dep.notify` (dep.js): `const subs = this.subs.slice()` takes a
snapshot of the subscriber list; outside the async path the snapshot is
additionally sorted by ascending id; then `update()` is invoked on each
snapshot entry in order.  The effect of each `update()` on the live
subscriber list is abstracted by `upd`, and the second component of the
result logs the `update()` invocations in order. -/
def notify (async : Bool) (upd : Nat → List Nat → List Nat)
    (subs : List Nat) : List Nat × List Nat :=
  let snapshot := if async then subs else subs.insertionSort (· ≤ ·)
  snapshot.foldl (fun (acc : List Nat × List Nat) s => (upd s acc.1, acc.2 ++ [s]))
    (subs, [])

/-! ## The object heap, `observe`, the reactive setter, the array-method
wrappers and the deep traversal -/

/-- Kind of a heap object as the observer distinguishes them:
`Array.isArray`, `isPlainObject`, `instanceof VNode`, or some other
non-plain object (e.g. a Date). -/
inductive HKind : Type
  | plain | arrK | vnode | other
  deriving DecidableEq, Repr

/-- One heap object: its kind, the `Object.isExtensible` /
`Object.isFrozen` flags, the `_isVue` marker, its `__ob__` (modelled by
the observer's dep id, `none` when unobserved), the observer's `vmCount`,
and its own enumerable contents (array elements, or the values of
`Object.keys` in key order). -/
structure HObj : Type where
  kind : HKind
  extensible : Bool := true
  frozen : Bool := false
  isVue : Bool := false
  ob : Option Nat := none
  vmCount : Nat := 0
  children : List JSVal := []
  deriving DecidableEq, Repr

/-- The object heap (object id to object, `none` for unused ids), plus the
Dep `uid` counter used to give a fresh dep id to each new Observer, and
the global `shouldObserve` switch. -/
structure Heap : Type where
  objs : Nat → Option HObj
  nextDep : Nat := 0
  shouldObserve : Bool := true

/-- Replace one object in the heap. -/
def Heap.setObj (h : Heap) (i : Nat) (o : HObj) : Heap :=
  { h with objs := fun j => if j = i then some o else h.objs j }

/-- The `ob.vmCount++` step of `observe` for `asRootData`. -/
def Heap.bumpVm (h : Heap) (i : Nat) : Heap :=
  match h.objs i with
  | some o => h.setObj i { o with vmCount := o.vmCount + 1 }
  | none => h

/-- Source `observe(value, asRootData)` (observer/index.js), with explicit
recursion fuel: skip non-objects and VNodes; reuse an existing `__ob__`;
otherwise, when `shouldObserve` is on, the value is a plain object or
array, extensible, and not a Vue instance, create a new Observer — a fresh
dep, the `__ob__` mark, and the recursive instrumentation of the contents
(`observeArray` for arrays, `walk`/`defineReactive` for objects, whose
per-child effect is observing the child value; the per-key reactive
accessors live in `PropS` below).  `isServerRendering()` is `false` in the
modelled browser runtime.  Finally `vmCount` is bumped for root data. -/
def observeF : Nat → JSVal → Bool → Heap → Option Nat × Heap
  | 0, _, _, h => (none, h)
  | fuel+1, v, asRootData, h =>
    match v with
    | .ref i =>
      (match h.objs i with
      | none => (none, h)
      | some o =>
        if o.kind = .vnode then (none, h)
        else
          let res : Option Nat × Heap :=
            match o.ob with
            | some d => (some d, h)
            | none =>
              if h.shouldObserve && (o.kind = .arrK || o.kind = .plain)
                  && o.extensible && !o.isVue then
                let d := h.nextDep
                let h1 := { (h.setObj i { o with ob := some d }) with
                              nextDep := h.nextDep + 1 }
                let h2 := o.children.foldl
                  (fun acc c => (observeF fuel c false acc).2) h1
                (some d, h2)
              else (none, h)
          match res with
          | (some d, h2) =>
            (some d, if asRootData then h2.bumpVm i else h2)
          | r => r)
    | _ => (none, h)

/-- The closure state of one property installed by `defineReactive`
(observer/index.js): the cached pre-existing accessors (`getter`,
`setter`), the `shallow` flag, the value the pre-existing getter currently
returns, the closure variable `val`, the last value handed to the
pre-existing setter, the current `childOb`, and ghost counters for
`dep.notify()` and the dev-mode `customSetter` warning. -/
structure PropS : Type where
  hasGetter : Bool := false
  hasSetter : Bool := false
  shallow : Bool := false
  getterVal : JSVal := .undef
  backingVal : JSVal := .undef
  setterStored : Option JSVal := none
  childOb : Option Nat := none
  notifies : Nat := 0
  warns : Nat := 0
  deriving DecidableEq, Repr

/-- Source `reactiveSetter` (observer/index.js lines 183-203): read the
current value through the pre-existing getter if any; return when the new
value is identical (or both are NaN, via the self-comparison test); warn
through `customSetter` in dev; return for accessors with a getter but no
setter (#7981); store through the pre-existing setter or into `val`;
re-observe the new value unless shallow; notify the property's dep. -/
def reactiveSet (fuel : Nat) (p : PropS) (h : Heap) (newVal : JSVal)
    (customSetter : Bool) : PropS × Heap :=
  let value := if p.hasGetter then p.getterVal else p.backingVal
  if jsEq newVal value || (!(jsEq newVal newVal) && !(jsEq value value)) then
    (p, h)
  else
    let p1 := if customSetter then { p with warns := p.warns + 1 } else p
    if p.hasGetter && !p.hasSetter then (p1, h)
    else
      let p2 := if p.hasSetter then { p1 with setterStored := some newVal }
                else { p1 with backingVal := newVal }
      let obh := if !p.shallow then observeF fuel newVal false h
                 else (none, h)
      ({ p2 with childOb := obh.1, notifies := p2.notifies + 1 }, obh.2)

/-- The seven structure-mutating array methods patched in
src/unnamed/part_006. -/
inductive ArrMethod : Type
  | push | pop | shift | unshift | splice | sort | reverse
  deriving DecidableEq, Repr

/-- Source `methodsToPatch`: exactly these seven methods are replaced on
observed arrays. -/
def methodsToPatch : List ArrMethod :=
  [.push, .pop, .shift, .unshift, .splice, .sort, .reverse]

/-- Source `mutator` (src/unnamed/part_006): run the cached native method
(`original.apply(this, args)`, abstracted as a function from the array's
contents and the arguments to the new contents and the return value), read
`this.__ob__`, compute `inserted` (the arguments for push/unshift, the
third-and-later arguments for splice), observe the inserted elements, and
notify the array's own dep.  The returned list logs the dep ids notified;
the `none` fallbacks are unreachable because the wrappers are only
installed on observed arrays. -/
def mutator (original : List JSVal → List JSVal → List JSVal × JSVal)
    (method : ArrMethod) (fuel : Nat) (selfId : Nat) (args : List JSVal)
    (h : Heap) : Heap × JSVal × List Nat :=
  match h.objs selfId with
  | none => (h, .undef, [])
  | some o =>
    let nr := original o.children args
    let h1 := h.setObj selfId { o with children := nr.1 }
    match o.ob with
    | none => (h1, nr.2, [])
    | some d =>
      let inserted : Option (List JSVal) :=
        match method with
        | .push => some args
        | .unshift => some args
        | .splice => some (args.drop 2)
        | _ => none
      let h2 := match inserted with
        | some ins => ins.foldl (fun acc c => (observeF fuel c false acc).2) h1
        | none => h1
      (h2, nr.2, [d])

/-- Native `Array.prototype.push`: append the arguments, return the new
length. -/
def nativePush (self args : List JSVal) : List JSVal × JSVal :=
  (self ++ args, .num (self.length + args.length))

/-- Source `_traverse(val, seen)` (src/unnamed/part_004), with explicit
recursion fuel (`none` = the fuel ran out, i.e. the JS recursion is still
running): return on primitives, frozen values and VNodes; for an observed
container check-and-record its dep id in `seen` (an already-seen dep id
returns immediately, this is the cycle guard); then recurse through the
elements (arrays) or own key values (objects), in both cases from the last
entry down (`while (i--)`, hence `children.reverse`), threading `seen`.
The ghost log collects the dep id of every observed container actually
descended into. -/
def trF (h : Heap) : Nat → JSVal → Finset Nat → Option (Finset Nat × List Nat)
  | 0, _, _ => none
  | fuel+1, v, seen =>
    match v with
    | .ref i =>
      (match h.objs i with
      | none => some (seen, [])
      | some o =>
        if o.frozen || o.kind = .vnode then some (seen, [])
        else
          match o.ob with
          | some d =>
            if d ∈ seen then some (seen, [])
            else
              o.children.reverse.foldl
                (fun acc c =>
                  match acc with
                  | none => none
                  | some sl =>
                    match trF h fuel c sl.1 with
                    | none => none
                    | some sl2 => some (sl2.1, sl.2 ++ sl2.2))
                (some (insert d seen, [d]))
          | none =>
            o.children.reverse.foldl
              (fun acc c =>
                match acc with
                | none => none
                | some sl =>
                  match trF h fuel c sl.1 with
                  | none => none
                  | some sl2 => some (sl2.1, sl.2 ++ sl2.2))
              (some (seen, [])))
    | _ => some (seen, [])

/-- The step of the child loop of `_traverse`, named for use in proofs;
it is definitionally the fold step inside `trF`. -/
def trStep (h : Heap) (fuel : Nat) (acc : Option (Finset Nat × List Nat))
    (c : JSVal) : Option (Finset Nat × List Nat) :=
  match acc with
  | none => none
  | some sl =>
    match trF h fuel c sl.1 with
    | none => none
    | some sl2 => some (sl2.1, sl.2 ++ sl2.2)

/-- Source `traverse(val)`: run `_traverse` against the process-wide
`seenObjects` set (empty at the top of a top-level call) and clear it
afterwards. -/
def traverseF (h : Heap) (fuel : Nat) (v : JSVal) :
    Option (Finset Nat × List Nat) :=
  match trF h fuel v ∅ with
  | none => none
  | some sl => some (∅, sl.2)

/-! ## Basic facts about the machine operations -/

@[simp]
theorem setW_ws (m : Machine) (t : Nat) (w : W) (x : Nat) :
    (setW m t w).ws x = if x = t then w else m.ws x := rfl

@[simp]
theorem setW_subs (m : Machine) (t : Nat) (w : W) :
    (setW m t w).subs = m.subs := rfl

@[simp]
theorem setW_target (m : Machine) (t : Nat) (w : W) :
    (setW m t w).target = m.target := rfl

@[simp]
theorem setW_targetStack (m : Machine) (t : Nat) (w : W) :
    (setW m t w).targetStack = m.targetStack := rfl

@[simp]
theorem setW_handledErrors (m : Machine) (t : Nat) (w : W) :
    (setW m t w).handledErrors = m.handledErrors := rfl

@[simp]
theorem addSub_ws (m : Machine) (d t : Nat) : (addSub m d t).ws = m.ws := rfl

@[simp]
theorem addSub_target (m : Machine) (d t : Nat) :
    (addSub m d t).target = m.target := rfl

@[simp]
theorem addSub_targetStack (m : Machine) (d t : Nat) :
    (addSub m d t).targetStack = m.targetStack := rfl

@[simp]
theorem addSub_handledErrors (m : Machine) (d t : Nat) :
    (addSub m d t).handledErrors = m.handledErrors := rfl

@[simp]
theorem addSub_subs (m : Machine) (d t : Nat) (x : Nat) :
    (addSub m d t).subs x = if x = d then m.subs x ++ [t] else m.subs x := rfl

@[simp]
theorem removeSub_ws (m : Machine) (d t : Nat) : (removeSub m d t).ws = m.ws := rfl

@[simp]
theorem removeSub_target (m : Machine) (d t : Nat) :
    (removeSub m d t).target = m.target := rfl

@[simp]
theorem removeSub_targetStack (m : Machine) (d t : Nat) :
    (removeSub m d t).targetStack = m.targetStack := rfl

@[simp]
theorem removeSub_handledErrors (m : Machine) (d t : Nat) :
    (removeSub m d t).handledErrors = m.handledErrors := rfl

@[simp]
theorem removeSub_subs (m : Machine) (d t : Nat) (x : Nat) :
    (removeSub m d t).subs x =
      if x = d then (m.subs x).erase t else m.subs x := rfl

/-- Characterization of a run of `depend` calls (the reads an evaluation
performs) while watcher `t` is the active target: the global fields and
every other watcher are untouched, on `t` only the new-pass records
change, `newDepIds` gains exactly the ids read, and a dep's subscriber
list gains one copy of `t` exactly when the dep was read this pass and was
neither already collected this pass nor held from the previous pass. -/
theorem foldl_depend_spec (reads : List Nat) :
    ∀ (m : Machine) (t : Nat), m.target = some t →
    ((reads.foldl depend m).target = some t ∧
     (reads.foldl depend m).targetStack = m.targetStack ∧
     (reads.foldl depend m).handledErrors = m.handledErrors ∧
     (∀ u, u ≠ t → (reads.foldl depend m).ws u = m.ws u) ∧
     ((reads.foldl depend m).ws t) =
       { m.ws t with newDeps := ((reads.foldl depend m).ws t).newDeps,
                     newDepIds := ((reads.foldl depend m).ws t).newDepIds } ∧
     (∀ d, d ∈ ((reads.foldl depend m).ws t).newDepIds ↔
         (d ∈ (m.ws t).newDepIds ∨ d ∈ reads)) ∧
     (∀ d, (reads.foldl depend m).subs d =
         if d ∈ reads ∧ d ∉ (m.ws t).newDepIds ∧ d ∉ (m.ws t).depIds
         then m.subs d ++ [t] else m.subs d)) := by
  induction reads with
  | nil =>
    intro m t ht
    refine ⟨ht, rfl, rfl, fun u _ => rfl, rfl, fun d => by simp, fun d => by simp⟩
  | cons r rest ih =>
    intro m t ht
    rw [List.foldl_cons, show depend m r = addDep m t r from by simp [depend, ht]]
    by_cases h1 : r ∈ (m.ws t).newDepIds
    · rw [show addDep m t r = m from by simp [addDep, h1]]
      obtain ⟨c1, c2, c3, c4, c5, c6, c7⟩ := ih m t ht
      refine ⟨c1, c2, c3, c4, c5, fun d => ?_, fun d => ?_⟩
      · rw [c6 d, List.mem_cons]
        constructor
        · rintro (hd | hd)
          · exact Or.inl hd
          · exact Or.inr (Or.inr hd)
        · rintro (hd | hd | hd)
          · exact Or.inl hd
          · exact Or.inl (hd ▸ h1)
          · exact Or.inr hd
      · rw [c7 d]
        by_cases hd : d ∈ (m.ws t).newDepIds
        · simp [hd]
        · have hdr : d ≠ r := fun he => hd (he ▸ h1)
          simp [List.mem_cons, hdr]
    · have ha : addDep m t r =
          (if r ∈ (m.ws t).depIds
           then setW m t { m.ws t with newDepIds := (m.ws t).newDepIds ++ [r],
                                       newDeps := (m.ws t).newDeps ++ [r] }
           else addSub (setW m t
                  { m.ws t with newDepIds := (m.ws t).newDepIds ++ [r],
                                newDeps := (m.ws t).newDeps ++ [r] }) r t) := by
        simp [addDep, h1]
      by_cases h2 : r ∈ (m.ws t).depIds
      · rw [ha, if_pos h2]
        obtain ⟨c1, c2, c3, c4, c5, c6, c7⟩ :=
          ih (setW m t { m.ws t with newDepIds := (m.ws t).newDepIds ++ [r],
                                     newDeps := (m.ws t).newDeps ++ [r] }) t ht
        refine ⟨c1, c2, c3, ?_, ?_, fun d => ?_, fun d => ?_⟩
        · intro u hu
          rw [c4 u hu]
          simp [hu]
        · rw [c5]
          simp
        · rw [c6 d]
          simp [List.mem_append, List.mem_cons, or_assoc]
        · rw [c7 d]
          by_cases hdr : d = r
          · subst hdr
            simp [h2, List.mem_append]
          · simp [List.mem_cons, List.mem_append, hdr]
      · rw [ha, if_neg h2]
        obtain ⟨c1, c2, c3, c4, c5, c6, c7⟩ :=
          ih (addSub (setW m t
                { m.ws t with newDepIds := (m.ws t).newDepIds ++ [r],
                              newDeps := (m.ws t).newDeps ++ [r] }) r t) t ht
        refine ⟨c1, c2, c3, ?_, ?_, fun d => ?_, fun d => ?_⟩
        · intro u hu
          rw [c4 u hu]
          simp [hu]
        · rw [c5]
          simp
        · rw [c6 d]
          simp [List.mem_append, List.mem_cons, or_assoc]
        · rw [c7 d]
          by_cases hdr : d = r
          · subst hdr
            simp [h1, h2, List.mem_append, List.mem_cons]
          · simp [List.mem_cons, List.mem_append, hdr]

/-- A `depend` run keeps `newDeps` and `newDepIds` equal as lists when
they start out equal (both gain the same id, or neither). -/
theorem foldl_depend_newDeps (reads : List Nat) :
    ∀ (m : Machine) (t : Nat), m.target = some t →
    (m.ws t).newDeps = (m.ws t).newDepIds →
    ((reads.foldl depend m).ws t).newDeps =
      ((reads.foldl depend m).ws t).newDepIds := by
  induction reads with
  | nil => intro m t _ h; simpa using h
  | cons r rest ih =>
    intro m t ht h
    rw [List.foldl_cons, show depend m r = addDep m t r from by simp [depend, ht]]
    by_cases h1 : r ∈ (m.ws t).newDepIds
    · rw [show addDep m t r = m from by simp [addDep, h1]]
      exact ih m t ht h
    · by_cases h2 : r ∈ (m.ws t).depIds
      · rw [show addDep m t r = setW m t
            { m.ws t with newDepIds := (m.ws t).newDepIds ++ [r],
                          newDeps := (m.ws t).newDeps ++ [r] } from by
          simp [addDep, h1, h2]]
        refine ih _ t ?_ (by simp [h])
        exact ht
      · rw [show addDep m t r = addSub (setW m t
            { m.ws t with newDepIds := (m.ws t).newDepIds ++ [r],
                          newDeps := (m.ws t).newDeps ++ [r] }) r t from by
          simp [addDep, h1, h2]]
        refine ih _ t ?_ (by simp [h])
        exact ht

/-- A `depend` run keeps `newDepIds` duplicate-free (ids are only added on
first encounter). -/
theorem foldl_depend_nodup (reads : List Nat) :
    ∀ (m : Machine) (t : Nat), m.target = some t →
    ((m.ws t).newDepIds).Nodup →
    (((reads.foldl depend m).ws t).newDepIds).Nodup := by
  induction reads with
  | nil => intro m t _ h; simpa using h
  | cons r rest ih =>
    intro m t ht h
    rw [List.foldl_cons, show depend m r = addDep m t r from by simp [depend, ht]]
    by_cases h1 : r ∈ (m.ws t).newDepIds
    · rw [show addDep m t r = m from by simp [addDep, h1]]
      exact ih m t ht h
    · by_cases h2 : r ∈ (m.ws t).depIds
      · rw [show addDep m t r = setW m t
            { m.ws t with newDepIds := (m.ws t).newDepIds ++ [r],
                          newDeps := (m.ws t).newDeps ++ [r] } from by
          simp [addDep, h1, h2]]
        refine ih _ t ?_ (by simp [List.nodup_append, h, h1])
        exact ht
      · rw [show addDep m t r = addSub (setW m t
            { m.ws t with newDepIds := (m.ws t).newDepIds ++ [r],
                          newDeps := (m.ws t).newDeps ++ [r] }) r t from by
          simp [addDep, h1, h2]]
        refine ih _ t ?_ (by simp [List.nodup_append, h, h1])
        exact ht

/-- Characterization of the stale-unsubscription loop of `cleanupDeps`:
the watcher table is untouched, and a duplicate-free walk erases the
watcher exactly from the deps walked that are absent from `newDepIds`. -/
theorem cleanupRemove_spec :
    ∀ (ds : List Nat) (m : Machine) (t : Nat), ds.Nodup →
    ((cleanupRemove m t ds).ws = m.ws ∧
     (cleanupRemove m t ds).target = m.target ∧
     (cleanupRemove m t ds).targetStack = m.targetStack ∧
     (cleanupRemove m t ds).handledErrors = m.handledErrors ∧
     ∀ d, (cleanupRemove m t ds).subs d =
       if d ∈ ds ∧ d ∉ (m.ws t).newDepIds then (m.subs d).erase t
       else m.subs d) := by
  intro ds
  induction ds with
  | nil =>
    intro m t _
    exact ⟨rfl, rfl, rfl, rfl, fun d => by simp [cleanupRemove]⟩
  | cons d0 ds ih =>
    intro m t hnd
    have hstep : cleanupRemove m t (d0 :: ds) =
        cleanupRemove (if d0 ∈ (m.ws t).newDepIds then m else removeSub m d0 t)
          t ds := by
      simp [cleanupRemove]
    rw [hstep]
    by_cases h0 : d0 ∈ (m.ws t).newDepIds
    · rw [if_pos h0]
      obtain ⟨c1, c2, c3, c4, c5⟩ := ih m t hnd.of_cons
      refine ⟨c1, c2, c3, c4, fun d => ?_⟩
      rw [c5 d]
      by_cases hd : d = d0
      · subst hd; simp [h0]
      · simp [List.mem_cons, hd]
    · rw [if_neg h0]
      obtain ⟨c1, c2, c3, c4, c5⟩ := ih (removeSub m d0 t) t hnd.of_cons
      have hd0ds : d0 ∉ ds := (List.nodup_cons.mp hnd).1
      refine ⟨c1, c2, c3, c4, fun d => ?_⟩
      rw [c5 d]
      by_cases hd : d = d0
      · subst hd
        simp [hd0ds, h0]
      · simp [List.mem_cons, hd]

/-- Characterization of `cleanupDeps`: the dep sets are swapped and the
new ones cleared, and the watcher is erased from every previously held dep
that was not re-collected. -/
theorem cleanupDeps_spec (m : Machine) (t : Nat)
    (hnd : (m.ws t).deps.Nodup) :
    ((cleanupDeps m t).target = m.target ∧
     (cleanupDeps m t).targetStack = m.targetStack ∧
     (cleanupDeps m t).handledErrors = m.handledErrors ∧
     (∀ u, u ≠ t → (cleanupDeps m t).ws u = m.ws u) ∧
     (cleanupDeps m t).ws t =
       { m.ws t with deps := (m.ws t).newDeps, depIds := (m.ws t).newDepIds,
                     newDeps := [], newDepIds := [] } ∧
     ∀ d, (cleanupDeps m t).subs d =
       if d ∈ (m.ws t).deps ∧ d ∉ (m.ws t).newDepIds then (m.subs d).erase t
       else m.subs d) := by
  obtain ⟨c1, c2, c3, c4, c5⟩ :=
    cleanupRemove_spec (m.ws t).deps.reverse m t (List.nodup_reverse.mpr hnd)
  have hws : (cleanupRemove m t (m.ws t).deps.reverse).ws t = m.ws t := by
    rw [c1]
  refine ⟨?_, ?_, ?_, ?_, ?_, ?_⟩
  · show (setW _ t _).target = m.target
    rw [setW_target, c2]
  · show (setW _ t _).targetStack = m.targetStack
    rw [setW_targetStack, c3]
  · show (setW _ t _).handledErrors = m.handledErrors
    rw [setW_handledErrors, c4]
  · intro u hu
    show (setW _ t _).ws u = m.ws u
    rw [setW_ws, if_neg hu, c1]
  · show (setW _ t _).ws t = _
    rw [setW_ws, if_pos rfl, hws]
  · intro d
    show (setW _ t _).subs d = _
    rw [setW_subs, c5 d]
    simp [List.mem_reverse]

/-- Well-formedness of one watcher outside an evaluation: the new-pass
records are clear, `depIds` lists exactly `deps` (duplicate-free), and a
dep's subscriber list holds the watcher exactly once when held, never
otherwise. -/
def WInv (m : Machine) (t : Nat) : Prop :=
  (m.ws t).newDeps = [] ∧ (m.ws t).newDepIds = [] ∧
  (m.ws t).depIds = (m.ws t).deps ∧ (m.ws t).deps.Nodup ∧
  ∀ d, (m.subs d).count t = if d ∈ (m.ws t).deps then 1 else 0

/-- The dep ids whose `depend()` fires during one `Watcher.get`: the
getter's reads plus, for a deep watcher whose getter returned, the deep
traversal's reads. -/
def effReads (m : Machine) (t : Nat) (reads : List Nat) (throws : Bool)
    (deepReads : List Nat) : List Nat :=
  reads ++ (if (m.ws t).deep && !throws then deepReads else [])

theorem dropLast_append_single {α : Type} (l : List α) (a : α) :
    (l ++ [a]).dropLast = l := by
  simp

/-- From a summary of the machine state at the end of the `try` body of
`Watcher.get` (target pushed, getter counted, reads collected into the
new-pass records, error bookkeeping done), `popTarget` plus `cleanupDeps`
produce the advertised final state. -/
theorem wget_finish (m mp : Machine) (t : Nat) (E : List Nat)
    (throws : Bool)
    (hdnd : (m.ws t).deps.Nodup)
    (hcount : ∀ d, (m.subs d).count t = if d ∈ (m.ws t).deps then 1 else 0)
    (hstr : mp.ws t =
      { m.ws t with evalCount := (m.ws t).evalCount + 1,
                    newDeps := (mp.ws t).newDeps,
                    newDepIds := (mp.ws t).newDepIds })
    (hmem : ∀ d, d ∈ (mp.ws t).newDepIds ↔ d ∈ E)
    (hsubs : ∀ d, mp.subs d =
      if d ∈ E ∧ d ∉ (m.ws t).deps then m.subs d ++ [t] else m.subs d)
    (hndeq : (mp.ws t).newDeps = (mp.ws t).newDepIds)
    (hnodup : ((mp.ws t).newDepIds).Nodup)
    (hstack : mp.targetStack = m.targetStack ++ [some t])
    (hhe : mp.handledErrors =
      m.handledErrors + (if throws && (m.ws t).user then 1 else 0)) :
    (WInv (cleanupDeps (popTarget mp) t) t ∧
     (∀ d, d ∈ ((cleanupDeps (popTarget mp) t).ws t).deps ↔ d ∈ E) ∧
     (∀ d, ((cleanupDeps (popTarget mp) t).subs d).count t =
        if d ∈ E then 1 else 0) ∧
     (cleanupDeps (popTarget mp) t).targetStack = m.targetStack ∧
     (cleanupDeps (popTarget mp) t).target =
        (m.targetStack.getLast?).getD none ∧
     (cleanupDeps (popTarget mp) t).ws t =
       { m.ws t with evalCount := (m.ws t).evalCount + 1,
                     deps := (mp.ws t).newDeps, depIds := (mp.ws t).newDepIds,
                     newDeps := [], newDepIds := [] } ∧
     (cleanupDeps (popTarget mp) t).handledErrors =
        m.handledErrors + (if throws && (m.ws t).user then 1 else 0)) := by
  have hpws : (popTarget mp).ws = mp.ws := rfl
  have hpsubs : (popTarget mp).subs = mp.subs := rfl
  have hphe : (popTarget mp).handledErrors = mp.handledErrors := rfl
  have hpstack : (popTarget mp).targetStack = m.targetStack := by
    show mp.targetStack.dropLast = m.targetStack
    rw [hstack, dropLast_append_single]
  have hptarget : (popTarget mp).target = (m.targetStack.getLast?).getD none := by
    show (mp.targetStack.dropLast.getLast?).getD none = _
    rw [hstack, dropLast_append_single]
  have hmpdeps : (mp.ws t).deps = (m.ws t).deps := by rw [hstr]
  have hpdeps : ((popTarget mp).ws t).deps = (m.ws t).deps := by
    rw [hpws, hmpdeps]
  obtain ⟨c1, c2, c3, c4, c5, c6⟩ :=
    cleanupDeps_spec (popTarget mp) t (by rw [hpdeps]; exact hdnd)
  have hwst : (cleanupDeps (popTarget mp) t).ws t =
      { m.ws t with evalCount := (m.ws t).evalCount + 1,
                    deps := (mp.ws t).newDeps, depIds := (mp.ws t).newDepIds,
                    newDeps := [], newDepIds := [] } := by
    rw [c5, hpws, hstr]
  have hfdeps : ((cleanupDeps (popTarget mp) t).ws t).deps = (mp.ws t).newDeps := by
    rw [hwst]
  have hfmem : ∀ d, d ∈ ((cleanupDeps (popTarget mp) t).ws t).deps ↔ d ∈ E := by
    intro d
    rw [hfdeps, hndeq]
    exact hmem d
  have hfsubs : ∀ d, ((cleanupDeps (popTarget mp) t).subs d).count t =
      if d ∈ E then 1 else 0 := by
    intro d
    have h := c6 d
    rw [hpsubs, hpws, hmpdeps] at h
    by_cases hE : d ∈ E
    · have hnid : d ∈ (mp.ws t).newDepIds := (hmem d).mpr hE
      by_cases hdp : d ∈ (m.ws t).deps
      · rw [h, if_neg (fun hcon => hcon.2 hnid), hsubs d,
          if_neg (fun hcon => hcon.2 hdp), hcount d, if_pos hdp, if_pos hE]
      · rw [h, if_neg (fun hcon => hdp hcon.1), hsubs d, if_pos ⟨hE, hdp⟩,
          if_pos hE, List.count_append, hcount d, if_neg hdp]
        simp
    · have hnid : d ∉ (mp.ws t).newDepIds := fun hcon => hE ((hmem d).mp hcon)
      have hmsubs : mp.subs d = m.subs d := by
        rw [hsubs d, if_neg (fun hcon => hE hcon.1)]
      by_cases hdp : d ∈ (m.ws t).deps
      · rw [h, if_pos ⟨hdp, hnid⟩, hmsubs, if_neg hE, List.count_erase_self,
          hcount d, if_pos hdp]
      · rw [h, if_neg (fun hcon => hdp hcon.1), hmsubs, if_neg hE, hcount d,
          if_neg hdp]
  refine ⟨⟨?_, ?_, ?_, ?_, ?_⟩, hfmem, hfsubs, ?_, ?_, hwst, ?_⟩
  · rw [hwst]
  · rw [hwst]
  · rw [hwst]
    exact hndeq.symm
  · rw [hfdeps, hndeq]
    exact hnodup
  · intro d
    rw [hfsubs d]
    by_cases hE : d ∈ E
    · rw [if_pos hE, if_pos ((hfmem d).mpr hE)]
    · rw [if_neg hE, if_neg (fun hcon => hE ((hfmem d).mp hcon))]
  · rw [c2, hpstack]
  · rw [c1, hptarget]
  · rw [c3, hphe, hhe]

/-- Full characterization of `Watcher.get` under the watcher invariant:
the invariant is preserved, the dep set and the subscriber lists end up
exactly at the deps read, the target stack is restored, the getter ran
once, the other watcher fields are untouched, a user error is handled and
a non-user error propagates. -/
theorem wget_spec (m : Machine) (t : Nat) (reads : List Nat) (throws : Bool)
    (gv : JSVal) (deepReads : List Nat) (hInv : WInv m t) :
    (WInv (wget m t reads throws gv deepReads).1 t ∧
     (∀ d, d ∈ ((wget m t reads throws gv deepReads).1.ws t).deps ↔
        d ∈ effReads m t reads throws deepReads) ∧
     (∀ d, ((wget m t reads throws gv deepReads).1.subs d).count t =
        if d ∈ effReads m t reads throws deepReads then 1 else 0) ∧
     (wget m t reads throws gv deepReads).1.targetStack = m.targetStack ∧
     (wget m t reads throws gv deepReads).1.target =
        (m.targetStack.getLast?).getD none ∧
     ((wget m t reads throws gv deepReads).1.ws t).evalCount =
        (m.ws t).evalCount + 1 ∧
     ((wget m t reads throws gv deepReads).1.ws t).active = (m.ws t).active ∧
     ((wget m t reads throws gv deepReads).1.ws t).dirty = (m.ws t).dirty ∧
     ((wget m t reads throws gv deepReads).1.ws t).lazy = (m.ws t).lazy ∧
     ((wget m t reads throws gv deepReads).1.ws t).sync = (m.ws t).sync ∧
     ((wget m t reads throws gv deepReads).1.ws t).deep = (m.ws t).deep ∧
     ((wget m t reads throws gv deepReads).1.ws t).user = (m.ws t).user ∧
     ((wget m t reads throws gv deepReads).1.ws t).value = (m.ws t).value ∧
     ((wget m t reads throws gv deepReads).1.ws t).cbCount = (m.ws t).cbCount ∧
     (wget m t reads throws gv deepReads).1.handledErrors =
        m.handledErrors + (if throws && (m.ws t).user then 1 else 0) ∧
     (wget m t reads throws gv deepReads).2 =
        (if throws && !(m.ws t).user then GetRes.thrown
         else GetRes.ok (if throws then JSVal.undef else gv))) := by
  obtain ⟨hnd0, hni0, hdi, hdnd, hcount⟩ := hInv
  let m2 : Machine := setW (pushTarget m (some t)) t
    { (pushTarget m (some t)).ws t with
        evalCount := ((pushTarget m (some t)).ws t).evalCount + 1 }
  have hm2target : m2.target = some t := rfl
  have hm2subs : m2.subs = m.subs := rfl
  have hm2wst : m2.ws t = { m.ws t with evalCount := (m.ws t).evalCount + 1 } := by
    show (setW _ t _).ws t = _
    rw [setW_ws, if_pos rfl]
    exact rfl
  obtain ⟨f1t, f1st, f1he, f1wu, f1str, f1mem, f1subs⟩ :=
    foldl_depend_spec reads m2 t hm2target
  let m3 : Machine := reads.foldl depend m2
  have h3target : m3.target = some t := f1t
  have h3stack : m3.targetStack = m.targetStack ++ [some t] := f1st
  have h3he : m3.handledErrors = m.handledErrors := f1he
  have h3str : m3.ws t =
      { m.ws t with evalCount := (m.ws t).evalCount + 1,
                    newDeps := (m3.ws t).newDeps,
                    newDepIds := (m3.ws t).newDepIds } := by
    have h := f1str
    rw [hm2wst] at h
    exact h
  have h3user : (m3.ws t).user = (m.ws t).user := by rw [h3str]
  have h3mem : ∀ d, d ∈ (m3.ws t).newDepIds ↔ d ∈ reads := by
    intro d
    have h := f1mem d
    rw [hm2wst] at h
    simpa [hni0] using h
  have h3subs : ∀ d, m3.subs d =
      if d ∈ reads ∧ d ∉ (m.ws t).deps then m.subs d ++ [t] else m.subs d := by
    intro d
    have h := f1subs d
    rw [hm2wst, hm2subs] at h
    simpa [hni0, hdi] using h
  have h3ndeq : (m3.ws t).newDeps = (m3.ws t).newDepIds :=
    foldl_depend_newDeps reads m2 t hm2target (by rw [hm2wst]; simp [hnd0, hni0])
  have h3nodup : ((m3.ws t).newDepIds).Nodup :=
    foldl_depend_nodup reads m2 t hm2target (by rw [hm2wst]; simp [hni0])
  let m4 : Machine := if throws && (m3.ws t).user then
      { m3 with handledErrors := m3.handledErrors + 1 } else m3
  have h4 : m4 = if throws && (m3.ws t).user then
      { m3 with handledErrors := m3.handledErrors + 1 } else m3 := rfl
  have h4ws : m4.ws = m3.ws := by rw [h4]; split <;> rfl
  have h4subs : m4.subs = m3.subs := by rw [h4]; split <;> rfl
  have h4targeteq : m4.target = m3.target := by rw [h4]; split <;> rfl
  have h4stack : m4.targetStack = m3.targetStack := by rw [h4]; split <;> rfl
  have h4wst : m4.ws t = m3.ws t := congrFun h4ws t
  have h4target : m4.target = some t := h4targeteq.trans h3target
  have h4he : m4.handledErrors =
      m.handledErrors + (if throws && (m.ws t).user then 1 else 0) := by
    rw [h4, h3user]
    by_cases hcu : (throws && (m.ws t).user) = true
    · rw [if_pos hcu, if_pos hcu]
      show m3.handledErrors + 1 = m.handledErrors + 1
      rw [h3he]
    · rw [if_neg hcu, if_neg hcu]
      simp [h3he]
  have h4deep : (m4.ws t).deep = (m.ws t).deep := by rw [h4wst, h3str]
  let m5 : Machine := if (m4.ws t).deep && !throws then
      deepReads.foldl depend m4 else m4
  have hm5 : m5 = if (m4.ws t).deep && !throws then
      deepReads.foldl depend m4 else m4 := rfl
  by_cases hc : ((m.ws t).deep && !throws) = true
  · -- deep watcher on the non-throwing path: the traversal reads collect too
    have hm5e : m5 = deepReads.foldl depend m4 := by
      rw [hm5, h4deep]
      simp [hc]
    obtain ⟨g1t, g1st, g1he, g1wu, g1str, g1mem, g1subs⟩ :=
      foldl_depend_spec deepReads m4 t h4target
    have hstr5 : m5.ws t =
        { m.ws t with evalCount := (m.ws t).evalCount + 1,
                      newDeps := (m5.ws t).newDeps,
                      newDepIds := (m5.ws t).newDepIds } := by
      rw [hm5e]
      have h := g1str
      rw [h4wst, h3str] at h
      exact h
    have hmem5 : ∀ d, d ∈ (m5.ws t).newDepIds ↔ d ∈ reads ++ deepReads := by
      intro d
      rw [hm5e]
      have h := g1mem d
      rw [h4wst, h3mem d] at h
      simpa [List.mem_append] using h
    have h3depIds : (m3.ws t).depIds = (m.ws t).deps := by
      rw [h3str]
      exact hdi
    have hsubs5 : ∀ d, m5.subs d =
        if d ∈ reads ++ deepReads ∧ d ∉ (m.ws t).deps
        then m.subs d ++ [t] else m.subs d := by
      intro d
      rw [hm5e]
      have h := g1subs d
      rw [h4wst, h4subs] at h
      simp only [h3depIds, h3mem d, h3subs d] at h
      by_cases hr : d ∈ reads
      · by_cases hdp : d ∈ (m.ws t).deps
        · simp [hr, hdp] at h ⊢
          exact h
        · simp [hr, hdp] at h ⊢
          exact h
      · by_cases hdd : d ∈ deepReads
        · by_cases hdp : d ∈ (m.ws t).deps
          · simp [hr, hdd, hdp] at h ⊢
            exact h
          · simp [hr, hdd, hdp] at h ⊢
            exact h
        · by_cases hdp : d ∈ (m.ws t).deps
          · simp [hr, hdd, hdp] at h ⊢
            exact h
          · simp [hr, hdd, hdp] at h ⊢
            exact h
    have hndeq5 : (m5.ws t).newDeps = (m5.ws t).newDepIds := by
      rw [hm5e]
      exact foldl_depend_newDeps deepReads m4 t h4target (by rw [h4wst]; exact h3ndeq)
    have hnodup5 : ((m5.ws t).newDepIds).Nodup := by
      rw [hm5e]
      exact foldl_depend_nodup deepReads m4 t h4target (by rw [h4wst]; exact h3nodup)
    have hstack5 : m5.targetStack = m.targetStack ++ [some t] := by
      rw [hm5e]
      exact g1st.trans (h4stack.trans h3stack)
    have hhe5 : m5.handledErrors =
        m.handledErrors + (if throws && (m.ws t).user then 1 else 0) := by
      rw [hm5e]
      exact g1he.trans h4he
    obtain ⟨F6inv, F6mem, F6cnt, F6stack, F6target, F6wst, F6he⟩ :=
      wget_finish m m5 t (reads ++ deepReads) throws hdnd hcount hstr5 hmem5
        hsubs5 hndeq5 hnodup5 hstack5 hhe5
    have hEeq : effReads m t reads throws deepReads = reads ++ deepReads := by
      simp [effReads, hc]
    have huser6 : ((cleanupDeps (popTarget m5) t).ws t).user = (m.ws t).user := by
      rw [F6wst]
    refine ⟨F6inv, ?_, ?_, F6stack, F6target, ?_, ?_, ?_, ?_, ?_, ?_, ?_, ?_,
      ?_, F6he, ?_⟩
    · intro d
      rw [hEeq]
      exact F6mem d
    · intro d
      rw [hEeq]
      exact F6cnt d
    · show ((cleanupDeps (popTarget m5) t).ws t).evalCount = _
      rw [F6wst]
    · show ((cleanupDeps (popTarget m5) t).ws t).active = _
      rw [F6wst]
    · show ((cleanupDeps (popTarget m5) t).ws t).dirty = _
      rw [F6wst]
    · show ((cleanupDeps (popTarget m5) t).ws t).lazy = _
      rw [F6wst]
    · show ((cleanupDeps (popTarget m5) t).ws t).sync = _
      rw [F6wst]
    · show ((cleanupDeps (popTarget m5) t).ws t).deep = _
      rw [F6wst]
    · show ((cleanupDeps (popTarget m5) t).ws t).user = _
      rw [F6wst]
    · show ((cleanupDeps (popTarget m5) t).ws t).value = _
      rw [F6wst]
    · show ((cleanupDeps (popTarget m5) t).ws t).cbCount = _
      rw [F6wst]
    · show (if throws && !((cleanupDeps (popTarget m5) t).ws t).user
          then GetRes.thrown
          else GetRes.ok (if throws then JSVal.undef else gv)) = _
      rw [huser6]
  · -- non-deep watcher (or a throw left the value undefined): no extra reads
    have hm5e : m5 = m4 := by
      rw [hm5, h4deep]
      simp [hc]
    have hstr5 : m5.ws t =
        { m.ws t with evalCount := (m.ws t).evalCount + 1,
                      newDeps := (m5.ws t).newDeps,
                      newDepIds := (m5.ws t).newDepIds } := by
      rw [hm5e, h4wst]
      exact h3str
    have hmem5 : ∀ d, d ∈ (m5.ws t).newDepIds ↔ d ∈ reads := by
      intro d
      rw [hm5e, h4wst]
      exact h3mem d
    have hsubs5 : ∀ d, m5.subs d =
        if d ∈ reads ∧ d ∉ (m.ws t).deps then m.subs d ++ [t] else m.subs d := by
      intro d
      rw [hm5e, h4subs]
      exact h3subs d
    have hndeq5 : (m5.ws t).newDeps = (m5.ws t).newDepIds := by
      rw [hm5e, h4wst]
      exact h3ndeq
    have hnodup5 : ((m5.ws t).newDepIds).Nodup := by
      rw [hm5e, h4wst]
      exact h3nodup
    have hstack5 : m5.targetStack = m.targetStack ++ [some t] := by
      rw [hm5e, h4stack]
      exact h3stack
    have hhe5 : m5.handledErrors =
        m.handledErrors + (if throws && (m.ws t).user then 1 else 0) := by
      rw [hm5e]
      exact h4he
    obtain ⟨F6inv, F6mem, F6cnt, F6stack, F6target, F6wst, F6he⟩ :=
      wget_finish m m5 t reads throws hdnd hcount hstr5 hmem5 hsubs5 hndeq5
        hnodup5 hstack5 hhe5
    have hEeq : effReads m t reads throws deepReads = reads := by
      simp [effReads, hc]
    have huser6 : ((cleanupDeps (popTarget m5) t).ws t).user = (m.ws t).user := by
      rw [F6wst]
    refine ⟨F6inv, ?_, ?_, F6stack, F6target, ?_, ?_, ?_, ?_, ?_, ?_, ?_, ?_,
      ?_, F6he, ?_⟩
    · intro d
      rw [hEeq]
      exact F6mem d
    · intro d
      rw [hEeq]
      exact F6cnt d
    · show ((cleanupDeps (popTarget m5) t).ws t).evalCount = _
      rw [F6wst]
    · show ((cleanupDeps (popTarget m5) t).ws t).active = _
      rw [F6wst]
    · show ((cleanupDeps (popTarget m5) t).ws t).dirty = _
      rw [F6wst]
    · show ((cleanupDeps (popTarget m5) t).ws t).lazy = _
      rw [F6wst]
    · show ((cleanupDeps (popTarget m5) t).ws t).sync = _
      rw [F6wst]
    · show ((cleanupDeps (popTarget m5) t).ws t).deep = _
      rw [F6wst]
    · show ((cleanupDeps (popTarget m5) t).ws t).user = _
      rw [F6wst]
    · show ((cleanupDeps (popTarget m5) t).ws t).value = _
      rw [F6wst]
    · show ((cleanupDeps (popTarget m5) t).ws t).cbCount = _
      rw [F6wst]
    · show (if throws && !((cleanupDeps (popTarget m5) t).ws t).user
          then GetRes.thrown
          else GetRes.ok (if throws then JSVal.undef else gv)) = _
      rw [huser6]

/-! ## Claim theorems on the Watcher/Dep machine -/

/-- A fresh machine: default watchers, empty subscriber lists. -/
def mEmpty : Machine := { ws := fun _ => {}, subs := fun _ => [] }

theorem mEmpty_WInv (t : Nat) : WInv mEmpty t :=
  ⟨rfl, rfl, rfl, List.nodup_nil, fun d => by simp [mEmpty]⟩

/-- C1: after a `Watcher.get`, the watcher's dependency set is exactly the
deps whose `depend()` fired during that evaluation — every dep read is
held and subscribed to, and every dep from the previous evaluation that
was not read this time has had the watcher removed from its subscriber
list by `cleanupDeps`. -/
theorem get_collects_exactly_read_deps (m : Machine) (t : Nat)
    (reads deepReads : List Nat) (throws : Bool) (gv : JSVal)
    (hInv : WInv m t) :
    (∀ d, d ∈ ((wget m t reads throws gv deepReads).1.ws t).deps ↔
        d ∈ effReads m t reads throws deepReads) ∧
    (∀ d, t ∈ (wget m t reads throws gv deepReads).1.subs d ↔
        d ∈ effReads m t reads throws deepReads) := by
  obtain ⟨_, hmem, hcnt, _⟩ := wget_spec m t reads throws gv deepReads hInv
  refine ⟨hmem, fun d => ?_⟩
  have h := hcnt d
  by_cases hd : d ∈ effReads m t reads throws deepReads
  · rw [if_pos hd] at h
    refine ⟨fun _ => hd, fun _ => ?_⟩
    have hpos : 0 < ((wget m t reads throws gv deepReads).1.subs d).count t := by
      rw [h]
      exact Nat.zero_lt_one
    exact List.count_pos_iff.mp hpos
  · rw [if_neg hd] at h
    refine ⟨fun hmem2 => ?_, fun hcon => absurd hcon hd⟩
    have hpos := List.count_pos_iff.mpr hmem2
    omega

theorem get_collects_exactly_read_deps_witness :
    ((10 ∈ ((wget mEmpty 1 [10, 20, 10] false (.num 5) []).1.ws 1).deps ↔
        10 ∈ effReads mEmpty 1 [10, 20, 10] false []) ∧
     (1 ∈ (wget mEmpty 1 [10, 20, 10] false (.num 5) []).1.subs 10 ↔
        10 ∈ effReads mEmpty 1 [10, 20, 10] false [])) :=
  ⟨(get_collects_exactly_read_deps mEmpty 1 [10, 20, 10] [] false (.num 5)
      (mEmpty_WInv 1)).1 10,
   (get_collects_exactly_read_deps mEmpty 1 [10, 20, 10] [] false (.num 5)
      (mEmpty_WInv 1)).2 10⟩

/-- One evaluation pass of a watcher: the dep ids its getter reads,
whether it throws, the value it returns, and the deep-traversal reads. -/
structure Pass : Type where
  reads : List Nat
  throws : Bool
  gv : JSVal
  deepReads : List Nat

/-- A sequence of `Watcher.get` evaluations by the same watcher. -/
def runPasses (t : Nat) : Machine → List Pass → Machine
  | m, [] => m
  | m, p :: ps => runPasses t (wget m t p.reads p.throws p.gv p.deepReads).1 ps

/-- C2: a watcher occurs at most once in any dep's subscriber list, no
matter how often the dep is read within one evaluation (duplicate ids in a
pass) and across any number of successive evaluations — `addDep`
subscribes only when the dep id is absent from both the new-pass and the
previous-pass id set. -/
theorem subscriber_at_most_once (m : Machine) (t : Nat) (hInv : WInv m t)
    (ps : List Pass) (d : Nat) :
    ((runPasses t m ps).subs d).count t ≤ 1 := by
  induction ps generalizing m with
  | nil =>
    obtain ⟨_, _, _, _, hcount⟩ := hInv
    show (m.subs d).count t ≤ 1
    rw [hcount d]
    by_cases hd : d ∈ (m.ws t).deps
    · rw [if_pos hd]
    · rw [if_neg hd]
      exact Nat.zero_le 1
  | cons p ps ih =>
    exact ih _ (wget_spec m t p.reads p.throws p.gv p.deepReads hInv).1

theorem subscriber_at_most_once_witness :
    ((runPasses 1 mEmpty
        [⟨[5, 5, 5], false, .num 1, []⟩, ⟨[5, 7], false, .num 2, []⟩]).subs 5).count 1
      ≤ 1 :=
  subscriber_at_most_once mEmpty 1 (mEmpty_WInv 1)
    [⟨[5, 5, 5], false, .num 1, []⟩, ⟨[5, 7], false, .num 2, []⟩] 5

/-- C6: whether or not the getter throws, and for user and non-user
watchers alike, `Watcher.get` pops its evaluation-stack entry in the
`finally` block (restoring `Dep.target` to its previous value) and still
reconciles the dep sets via `cleanupDeps`; a user watcher's error is
routed to `handleError` and `get` returns normally, while a non-user error
propagates to the caller. -/
theorem get_error_path_restores_target (m : Machine) (t : Nat)
    (reads deepReads : List Nat) (throws : Bool) (gv : JSVal)
    (hInv : WInv m t)
    (htw : m.target = (m.targetStack.getLast?).getD none) :
    ((wget m t reads throws gv deepReads).2 =
        (if throws && !(m.ws t).user then GetRes.thrown
         else GetRes.ok (if throws then JSVal.undef else gv)) ∧
     (wget m t reads throws gv deepReads).1.handledErrors =
        m.handledErrors + (if throws && (m.ws t).user then 1 else 0) ∧
     (wget m t reads throws gv deepReads).1.targetStack = m.targetStack ∧
     (wget m t reads throws gv deepReads).1.target = m.target ∧
     ((wget m t reads throws gv deepReads).1.ws t).newDepIds = [] ∧
     ((wget m t reads throws gv deepReads).1.ws t).newDeps = [] ∧
     (∀ d, d ∈ ((wget m t reads throws gv deepReads).1.ws t).deps ↔
        d ∈ effReads m t reads throws deepReads)) := by
  obtain ⟨hinv2, hmem, hcnt, hstack, htgt, hec, hac, hdr, hlz, hsy, hdp, hus,
    hv, hcb, hhe, hres⟩ := wget_spec m t reads throws gv deepReads hInv
  exact ⟨hres, hhe, hstack, htgt.trans htw.symm, hinv2.2.1, hinv2.1, hmem⟩

/-- A machine with one user watcher (id 1). -/
def mUser : Machine :=
  { ws := fun x => if x = 1 then { user := true } else {},
    subs := fun _ => [] }

theorem mUser_WInv : WInv mUser 1 := by
  refine ⟨?_, ?_, ?_, ?_, fun d => ?_⟩ <;> simp [mUser, WInv]

theorem get_error_path_restores_target_witness :
    (wget mUser 1 [7] true (.num 5) []).2 = GetRes.ok JSVal.undef ∧
    (wget mUser 1 [7] true (.num 5) []).1.handledErrors = 1 ∧
    (wget mUser 1 [7] true (.num 5) []).1.target = none := by
  have h := get_error_path_restores_target mUser 1 [7] [] true (.num 5)
    mUser_WInv rfl
  refine ⟨?_, ?_, ?_⟩
  · have h1 := h.1
    simpa [mUser] using h1
  · have h2 := h.2.1
    simpa [mUser] using h2
  · exact h.2.2.2.1

/-- Characterization of the unsubscription loop of `teardown`
(`while (i--) this.deps[i].removeSub(this)`). -/
theorem foldl_removeSub_spec :
    ∀ (ds : List Nat) (m : Machine) (t : Nat), ds.Nodup →
    ((ds.foldl (fun acc d => removeSub acc d t) m).ws = m.ws ∧
     (ds.foldl (fun acc d => removeSub acc d t) m).target = m.target ∧
     ∀ d, (ds.foldl (fun acc d => removeSub acc d t) m).subs d =
       if d ∈ ds then (m.subs d).erase t else m.subs d) := by
  intro ds
  induction ds with
  | nil => intro m t _; exact ⟨rfl, rfl, fun d => by simp⟩
  | cons d0 ds ih =>
    intro m t hnd
    rw [List.foldl_cons]
    obtain ⟨c1, c2, c3⟩ := ih (removeSub m d0 t) t hnd.of_cons
    have hd0ds : d0 ∉ ds := (List.nodup_cons.mp hnd).1
    refine ⟨c1, c2, fun d => ?_⟩
    rw [c3 d]
    by_cases hd : d = d0
    · subst hd
      simp [hd0ds]
    · simp [List.mem_cons, hd]

/-- An inactive watcher's `teardown` is a no-op (the whole body is guarded
by `if (this.active)`). -/
theorem teardown_inactive (m : Machine) (t : Nat)
    (h : (m.ws t).active = false) : teardown m t = m := by
  unfold teardown
  rw [h]
  simp

/-- An inactive watcher's `run` is a no-op (guarded by `if (this.active)`). -/
theorem run_inactive (m : Machine) (t : Nat) (reads : List Nat)
    (throws : Bool) (gv : JSVal) (dr : List Nat) (cb : Bool)
    (h : (m.ws t).active = false) :
    run m t reads throws gv dr cb = (m, GetRes.ok JSVal.undef) := by
  unfold run
  rw [h]
  simp

/-- C8: `teardown` removes the watcher from the subscriber list of every
dep it holds and deactivates it; a second `teardown` changes nothing; and
afterwards `run` is a strict no-op (no re-evaluation, no callback), so no
mutation of previously watched properties can invoke the callback. -/
theorem teardown_unsubscribes_and_deactivates (m : Machine) (t : Nat)
    (hInv : WInv m t) (hact : (m.ws t).active = true) :
    (((teardown m t).ws t).active = false ∧
     (∀ d, t ∉ (teardown m t).subs d) ∧
     teardown (teardown m t) t = teardown m t ∧
     (∀ reads throws gv dr cb,
        run (teardown m t) t reads throws gv dr cb =
          (teardown m t, GetRes.ok JSVal.undef))) := by
  obtain ⟨_, _, _, hdnd, hcount⟩ := hInv
  let m1 : Machine := if !m.isBeingDestroyed then
      { m with vmWatchers := m.vmWatchers.erase t } else m
  have hm1ws : m1.ws = m.ws := by
    show (if !m.isBeingDestroyed then
        { m with vmWatchers := m.vmWatchers.erase t } else m).ws = m.ws
    split <;> rfl
  have hm1subs : m1.subs = m.subs := by
    show (if !m.isBeingDestroyed then
        { m with vmWatchers := m.vmWatchers.erase t } else m).subs = m.subs
    split <;> rfl
  let m2 : Machine := (m1.ws t).deps.reverse.foldl
      (fun acc d => removeSub acc d t) m1
  have htd : teardown m t = setW m2 t { m2.ws t with active := false } := by
    unfold teardown
    rw [hact]
    rfl
  obtain ⟨c1, c2, c3⟩ := foldl_removeSub_spec (m1.ws t).deps.reverse m1 t
    (by rw [hm1ws]; exact List.nodup_reverse.mpr hdnd)
  have hactive : ((teardown m t).ws t).active = false := by
    rw [htd, setW_ws, if_pos rfl]
  have hsubs : ∀ d, t ∉ (teardown m t).subs d := by
    intro d
    rw [htd, setW_subs]
    have h := c3 d
    simp only [hm1ws, hm1subs] at h
    show t ∉ (List.foldl (fun acc d => removeSub acc d t) m1
      (m1.ws t).deps.reverse).subs d
    rw [hm1ws, h]
    by_cases hd : d ∈ (m.ws t).deps.reverse
    · rw [if_pos hd]
      have hcnt : ((m.subs d).erase t).count t = 0 := by
        rw [List.count_erase_self, hcount d,
          if_pos (List.mem_reverse.mp hd)]
      intro hcon
      have := List.count_pos_iff.mpr hcon
      omega
    · rw [if_neg hd]
      intro hcon
      have hpos := List.count_pos_iff.mpr hcon
      have h0 := hcount d
      rw [if_neg (fun hin => hd (List.mem_reverse.mpr hin))] at h0
      omega
  refine ⟨hactive, hsubs, teardown_inactive _ t hactive, ?_⟩
  intro reads throws gv dr cb
  exact run_inactive _ t reads throws gv dr cb hactive

theorem teardown_unsubscribes_and_deactivates_witness :
    (((teardown ((wget mEmpty 1 [5] false (.num 3) []).1) 1).ws 1).active
        = false ∧
     (1 ∉ (teardown ((wget mEmpty 1 [5] false (.num 3) []).1) 1).subs 5) ∧
     teardown (teardown ((wget mEmpty 1 [5] false (.num 3) []).1) 1) 1 =
       teardown ((wget mEmpty 1 [5] false (.num 3) []).1) 1) := by
  have h := teardown_unsubscribes_and_deactivates
    ((wget mEmpty 1 [5] false (.num 3) []).1) 1
    (wget_spec mEmpty 1 [5] false (.num 3) [] (mEmpty_WInv 1)).1
    (by decide)
  exact ⟨h.1, h.2.1 5, h.2.2.1⟩

/-- Reduction of `Watcher.evaluate` when `get` returns normally. -/
theorem evaluate_of_ok (m : Machine) (t : Nat) (reads : List Nat)
    (throws : Bool) (gv : JSVal) (dr : List Nat) (v : JSVal)
    (h : (wget m t reads throws gv dr).2 = GetRes.ok v) :
    evaluate m t reads throws gv dr =
      (setW (wget m t reads throws gv dr).1 t
        { (wget m t reads throws gv dr).1.ws t with value := v, dirty := false },
       GetRes.ok v) := by
  unfold evaluate
  rw [show wget m t reads throws gv dr =
    ((wget m t reads throws gv dr).1, (wget m t reads throws gv dr).2) from rfl,
    h]

/-- Reduction of `computedGetter` on a dirty watcher whose `evaluate`
returns normally while no outer evaluation is active. -/
theorem computedGetter_dirty (m : Machine) (t : Nat) (reads : List Nat)
    (throws : Bool) (gv : JSVal) (dr : List Nat) (v : JSVal)
    (hd : (m.ws t).dirty = true)
    (h : (wget m t reads throws gv dr).2 = GetRes.ok v)
    (ht : (wget m t reads throws gv dr).1.target = none) :
    (computedGetter m t reads throws gv dr).1 =
      setW (wget m t reads throws gv dr).1 t
        { (wget m t reads throws gv dr).1.ws t with
            value := v, dirty := false } := by
  unfold computedGetter
  rw [hd]
  simp only [if_true]
  rw [evaluate_of_ok m t reads throws gv dr v h]
  simp [ht]

/-- Reduction of `computedGetter` on a clean watcher while no outer
evaluation is active: nothing changes. -/
theorem computedGetter_clean (m : Machine) (t : Nat) (reads : List Nat)
    (throws : Bool) (gv : JSVal) (dr : List Nat)
    (hd : (m.ws t).dirty = false) (ht : m.target = none) :
    (computedGetter m t reads throws gv dr).1 = m := by
  unfold computedGetter
  rw [hd]
  simp [ht]

/-- C5: `update` on a lazy watcher only sets `dirty = true` — the
evaluation function does not run and nothing is scheduled; the getter runs
again exactly once when a reader finds `dirty` set and `computedGetter`
calls `evaluate`, which clears `dirty`; a second read without an
intervening update does not re-run the getter. -/
theorem lazy_update_defers_eval (m : Machine) (t : Nat)
    (r1 : List Nat) (th1 : Bool) (v1 : JSVal) (dr1 : List Nat) (cb1 : Bool)
    (reads : List Nat) (gv : JSVal) (deepReads : List Nat)
    (r2 : List Nat) (v2 : JSVal) (dr2 : List Nat)
    (hlazy : (m.ws t).lazy = true) (hInv : WInv m t)
    (hstack : m.targetStack = []) :
    ((update m t r1 th1 v1 dr1 cb1).2 = UpdPath.markedDirty ∧
     ((update m t r1 th1 v1 dr1 cb1).1.ws t).dirty = true ∧
     ((update m t r1 th1 v1 dr1 cb1).1.ws t).evalCount = (m.ws t).evalCount ∧
     (update m t r1 th1 v1 dr1 cb1).1.subs = m.subs ∧
     (update m t r1 th1 v1 dr1 cb1).1.queue = m.queue ∧
     ((computedGetter (update m t r1 th1 v1 dr1 cb1).1 t reads false gv
          deepReads).1.ws t).evalCount = (m.ws t).evalCount + 1 ∧
     ((computedGetter (update m t r1 th1 v1 dr1 cb1).1 t reads false gv
          deepReads).1.ws t).dirty = false ∧
     ((computedGetter
          (computedGetter (update m t r1 th1 v1 dr1 cb1).1 t reads false gv
            deepReads).1 t r2 false v2 dr2).1.ws t).evalCount =
        (m.ws t).evalCount + 1) := by
  have hu : update m t r1 th1 v1 dr1 cb1 =
      (setW m t { m.ws t with dirty := true }, UpdPath.markedDirty) := by
    simp [update, hlazy]
  have hmu : (update m t r1 th1 v1 dr1 cb1).1 =
      setW m t { m.ws t with dirty := true } := by rw [hu]
  have hInv2 : WInv (setW m t { m.ws t with dirty := true }) t := by
    obtain ⟨h1, h2, h3, h4, h5⟩ := hInv
    refine ⟨?_, ?_, ?_, ?_, fun d => ?_⟩ <;>
      simp [setW, h1, h2, h3, h4, h5]
  obtain ⟨hinv3, _, _, hstack3, htgt3, hec3, _, hdr3, _⟩ :=
    wget_spec (setW m t { m.ws t with dirty := true }) t reads false gv
      deepReads hInv2
  have htnone : (wget (setW m t { m.ws t with dirty := true }) t reads false
      gv deepReads).1.target = none := by
    rw [htgt3]
    show (((setW m t { m.ws t with dirty := true }).targetStack).getLast?).getD
      none = none
    rw [setW_targetStack, hstack]
    rfl
  have hok : (wget (setW m t { m.ws t with dirty := true }) t reads false gv
      deepReads).2 = GetRes.ok gv := by
    obtain ⟨_, _, _, _, _, _, _, _, _, _, _, _, _, _, _, hres⟩ :=
      wget_spec (setW m t { m.ws t with dirty := true }) t reads false gv
        deepReads hInv2
    simpa using hres
  have hdirty : ((setW m t { m.ws t with dirty := true }).ws t).dirty = true := by
    simp [setW]
  have hcg := computedGetter_dirty (setW m t { m.ws t with dirty := true }) t
    reads false gv deepReads gv hdirty hok htnone
  have hecu : ((setW m t { m.ws t with dirty := true }).ws t).evalCount =
      (m.ws t).evalCount := by simp [setW]
  refine ⟨by rw [hu], by rw [hmu]; simp [setW], by rw [hmu]; simp [setW],
    by rw [hmu]; exact rfl, by rw [hmu]; exact rfl, ?_, ?_, ?_⟩
  · rw [hmu, hcg, setW_ws, if_pos rfl]
    show ((wget (setW m t { m.ws t with dirty := true }) t reads false gv
      deepReads).1.ws t).evalCount = _
    rw [hec3, hecu]
  · rw [hmu, hcg, setW_ws, if_pos rfl]
  · rw [hmu, hcg]
    have hdirty2 : ((setW (wget (setW m t { m.ws t with dirty := true }) t
        reads false gv deepReads).1 t
        { (wget (setW m t { m.ws t with dirty := true }) t reads false gv
            deepReads).1.ws t with value := gv, dirty := false }).ws t).dirty
        = false := by
      rw [setW_ws, if_pos rfl]
    have htgt4 : (setW (wget (setW m t { m.ws t with dirty := true }) t reads
        false gv deepReads).1 t
        { (wget (setW m t { m.ws t with dirty := true }) t reads false gv
            deepReads).1.ws t with value := gv, dirty := false }).target
        = none := by
      rw [setW_target, htnone]
    rw [computedGetter_clean _ t r2 false v2 dr2 hdirty2 htgt4, setW_ws,
      if_pos rfl]
    show ((wget (setW m t { m.ws t with dirty := true }) t reads false gv
      deepReads).1.ws t).evalCount = _
    rw [hec3, hecu]

theorem lazy_update_defers_eval_witness :
    ((update (setW mEmpty 1 { lazy := true }) 1 [3] false (.num 0) [] false).2
        = UpdPath.markedDirty ∧
     ((update (setW mEmpty 1 { lazy := true }) 1 [3] false (.num 0) []
        false).1.ws 1).dirty = true ∧
     ((update (setW mEmpty 1 { lazy := true }) 1 [3] false (.num 0) []
        false).1.ws 1).evalCount = ((setW mEmpty 1 { lazy := true }).ws 1).evalCount ∧
     (update (setW mEmpty 1 { lazy := true }) 1 [3] false (.num 0) []
        false).1.subs = (setW mEmpty 1 { lazy := true }).subs ∧
     (update (setW mEmpty 1 { lazy := true }) 1 [3] false (.num 0) []
        false).1.queue = (setW mEmpty 1 { lazy := true }).queue ∧
     ((computedGetter (update (setW mEmpty 1 { lazy := true }) 1 [3] false
          (.num 0) [] false).1 1 [4] false (.num 7) []).1.ws 1).evalCount =
        ((setW mEmpty 1 { lazy := true }).ws 1).evalCount + 1 ∧
     ((computedGetter (update (setW mEmpty 1 { lazy := true }) 1 [3] false
          (.num 0) [] false).1 1 [4] false (.num 7) []).1.ws 1).dirty = false ∧
     ((computedGetter (computedGetter (update (setW mEmpty 1
          { lazy := true }) 1 [3] false (.num 0) [] false).1 1 [4] false
          (.num 7) []).1 1 [6] false (.num 8) []).1.ws 1).evalCount =
        ((setW mEmpty 1 { lazy := true }).ws 1).evalCount + 1) :=
  lazy_update_defers_eval (setW mEmpty 1 { lazy := true }) 1 [3] false
    (.num 0) [] false [4] (.num 7) [] [6] (.num 8) []
    (by decide)
    (by refine ⟨rfl, rfl, rfl, List.nodup_nil, fun d => ?_⟩; simp [setW, mEmpty])
    rfl

/-- The log accumulated by the notification loop is the starting log
followed by the snapshot it iterates over. -/
theorem notify_log (upd : Nat → List Nat → List Nat) :
    ∀ (l : List Nat) (c lg : List Nat),
    (l.foldl (fun acc s => (upd s acc.1, acc.2 ++ [s])) (c, lg)).2 = lg ++ l := by
  intro l
  induction l with
  | nil => intro c lg; simp
  | cons a l ih =>
    intro c lg
    rw [List.foldl_cons, ih]
    simp

/-- C3: one `Dep.notify` invokes `update()` exactly once on each watcher
present in the subscriber list at the moment `notify` was entered, and on
no other, whatever the `update()` calls do to the live list — the loop
runs over the `subs.slice()` snapshot (sorted by id outside the async
path, a permutation either way). -/
theorem notify_updates_snapshot_exactly_once (async : Bool)
    (upd : Nat → List Nat → List Nat) (subs : List Nat)
    (hnd : subs.Nodup) :
    (∀ s, s ∈ subs → ((notify async upd subs).2).count s = 1) ∧
    (∀ s, s ∉ subs → ((notify async upd subs).2).count s = 0) := by
  have hcnt : ∀ s, ((notify async upd subs).2).count s = subs.count s := by
    intro s
    show ((if async then subs else subs.insertionSort (· ≤ ·)).foldl
      (fun acc s => (upd s acc.1, acc.2 ++ [s])) (subs, [])).2.count s = _
    rw [notify_log]
    cases async
    · rw [List.nil_append, if_neg (by simp)]
      exact (List.perm_insertionSort (· ≤ ·) subs).count_eq s
    · simp
  refine ⟨fun s hs => ?_, fun s hs => ?_⟩
  · rw [hcnt s]
    exact List.count_eq_one_of_mem hnd hs
  · rw [hcnt s]
    exact List.count_eq_zero_of_not_mem hs

theorem notify_updates_snapshot_exactly_once_witness :
    ((notify true (fun _ l => l ++ [9]) [3, 1, 2]).2).count 3 = 1 ∧
    ((notify true (fun _ l => l ++ [9]) [3, 1, 2]).2).count 7 = 0 :=
  ⟨(notify_updates_snapshot_exactly_once true (fun _ l => l ++ [9]) [3, 1, 2]
      (by decide)).1 3 (by decide),
   (notify_updates_snapshot_exactly_once true (fun _ l => l ++ [9]) [3, 1, 2]
      (by decide)).2 7 (by decide)⟩

/-- C10: a reactive property installed over a pre-existing accessor that
has a getter but no setter silently drops any write of a differing value —
the `if (getter && !setter) return` guard fires before the store, the
re-observation and the notify. -/
theorem getter_only_setter_drops_write (fuel : Nat) (p : PropS) (h : Heap)
    (newVal : JSVal) (cs : Bool)
    (hg : p.hasGetter = true) (hs : p.hasSetter = false)
    (hdiff : jsEq newVal p.getterVal = false)
    (hnn : ¬(newVal = JSVal.nan ∧ p.getterVal = JSVal.nan)) :
    ((reactiveSet fuel p h newVal cs).2 = h ∧
     (reactiveSet fuel p h newVal cs).1.backingVal = p.backingVal ∧
     (reactiveSet fuel p h newVal cs).1.setterStored = p.setterStored ∧
     (reactiveSet fuel p h newVal cs).1.childOb = p.childOb ∧
     (reactiveSet fuel p h newVal cs).1.notifies = p.notifies) := by
  have hself : ∀ v : JSVal, jsEq v v = false ↔ v = JSVal.nan := by
    intro v
    cases v <;> simp [jsEq]
  have hc2 : (!(jsEq newVal newVal) && !(jsEq p.getterVal p.getterVal))
      = false := by
    by_cases h1 : newVal = JSVal.nan
    · by_cases h2 : p.getterVal = JSVal.nan
      · exact absurd ⟨h1, h2⟩ hnn
      · have hv : ¬(jsEq p.getterVal p.getterVal = false) :=
          fun hcon => h2 ((hself p.getterVal).mp hcon)
        simp only [Bool.not_eq_false] at hv
        simp [hv]
    · have hv : ¬(jsEq newVal newVal = false) :=
        fun hcon => h1 ((hself newVal).mp hcon)
      simp only [Bool.not_eq_false] at hv
      simp [hv]
  have hred : reactiveSet fuel p h newVal cs =
      ((if cs then { p with warns := p.warns + 1 } else p), h) := by
    unfold reactiveSet
    simp [hg, hs, hdiff, hc2]
  rw [hred]
  refine ⟨rfl, ?_, ?_, ?_, ?_⟩ <;> split <;> rfl

theorem getter_only_setter_drops_write_witness :
    ((reactiveSet 3 { hasGetter := true, getterVal := JSVal.num 1 }
        { objs := fun _ => none } (JSVal.num 2) false).2 =
      ({ objs := fun _ => none } : Heap) ∧
     (reactiveSet 3 { hasGetter := true, getterVal := JSVal.num 1 }
        { objs := fun _ => none } (JSVal.num 2) false).1.backingVal =
      ({ hasGetter := true, getterVal := JSVal.num 1 } : PropS).backingVal ∧
     (reactiveSet 3 { hasGetter := true, getterVal := JSVal.num 1 }
        { objs := fun _ => none } (JSVal.num 2) false).1.setterStored =
      ({ hasGetter := true, getterVal := JSVal.num 1 } : PropS).setterStored ∧
     (reactiveSet 3 { hasGetter := true, getterVal := JSVal.num 1 }
        { objs := fun _ => none } (JSVal.num 2) false).1.childOb =
      ({ hasGetter := true, getterVal := JSVal.num 1 } : PropS).childOb ∧
     (reactiveSet 3 { hasGetter := true, getterVal := JSVal.num 1 }
        { objs := fun _ => none } (JSVal.num 2) false).1.notifies =
      ({ hasGetter := true, getterVal := JSVal.num 1 } : PropS).notifies) :=
  getter_only_setter_drops_write 3
    { hasGetter := true, getterVal := JSVal.num 1 } { objs := fun _ => none }
    (JSVal.num 2) false rfl rfl (by decide) (by decide)

/-! ## Facts about `observe` on the heap -/

/-- What `observe` can never change about an object: everything except
turning `ob` from `none` to `some` and bumping `vmCount`. -/
def HPres (o o2 : HObj) : Prop :=
  o2.kind = o.kind ∧ o2.extensible = o.extensible ∧ o2.frozen = o.frozen ∧
  o2.isVue = o.isVue ∧ o2.children = o.children ∧
  (∀ d, o.ob = some d → o2.ob = some d)

theorem hpresRfl (o : HObj) : HPres o o :=
  ⟨rfl, rfl, rfl, rfl, rfl, fun _ hd => hd⟩

theorem hpresComp {o o1 o2 : HObj} (h1 : HPres o o1) (h2 : HPres o1 o2) :
    HPres o o2 :=
  ⟨h2.1.trans h1.1, h2.2.1.trans h1.2.1, h2.2.2.1.trans h1.2.2.1,
   h2.2.2.2.1.trans h1.2.2.2.1, h2.2.2.2.2.1.trans h1.2.2.2.2.1,
   fun d hd => h2.2.2.2.2.2 d (h1.2.2.2.2.2 d hd)⟩

/-- Pointwise behavior of `Heap.setObj`. -/
theorem setObj_objs (h : Heap) (i : Nat) (o : HObj) (j : Nat) :
    (h.setObj i o).objs j = if j = i then some o else h.objs j := rfl

/-- Unfolding of `observeF` at a reference. -/
theorem observeF_ref (fuel : Nat) (i : Nat) (ar : Bool) (h : Heap) :
    observeF (fuel+1) (.ref i) ar h =
      (match h.objs i with
      | none => (none, h)
      | some o =>
        if o.kind = .vnode then (none, h)
        else
          let res : Option Nat × Heap :=
            match o.ob with
            | some d => (some d, h)
            | none =>
              if h.shouldObserve && (o.kind = .arrK || o.kind = .plain)
                  && o.extensible && !o.isVue then
                let d := h.nextDep
                let h1 := { (h.setObj i { o with ob := some d }) with
                              nextDep := h.nextDep + 1 }
                let h2 := o.children.foldl
                  (fun acc c => (observeF fuel c false acc).2) h1
                (some d, h2)
              else (none, h)
          match res with
          | (some d, h2) =>
            (some d, if ar then h2.bumpVm i else h2)
          | r => r) := by
  rw [observeF]

/-- `Heap.bumpVm` only touches `vmCount`. -/
theorem bumpVm_pres (h : Heap) (i j : Nat) (o : HObj)
    (hj : h.objs j = some o) :
    ∃ o2, (h.bumpVm i).objs j = some o2 ∧ HPres o o2 := by
  unfold Heap.bumpVm
  cases hi : h.objs i with
  | none => exact ⟨o, hj, hpresRfl o⟩
  | some oi =>
    by_cases hij : j = i
    · subst hij
      rw [hj] at hi
      injection hi with hoi
      subst hoi
      refine ⟨{ o with vmCount := o.vmCount + 1 }, ?_, ?_⟩
      · show (h.setObj j { o with vmCount := o.vmCount + 1 }).objs j = _
        rw [setObj_objs, if_pos rfl]
      · exact ⟨rfl, rfl, rfl, rfl, rfl, fun d hd => hd⟩
    · refine ⟨o, ?_, hpresRfl o⟩
      show (h.setObj i { oi with vmCount := oi.vmCount + 1 }).objs j = some o
      rw [setObj_objs, if_neg hij]
      exact hj

/-- Unfolding of `observeF` at a dangling reference. -/
theorem observeF_ref_none (fuel : Nat) (i : Nat) (ar : Bool) (h : Heap)
    (hi : h.objs i = none) : observeF (fuel+1) (.ref i) ar h = (none, h) := by
  rw [observeF_ref, hi]

/-- Unfolding of `observeF` at a reference to an existing object. -/
theorem observeF_ref_some (fuel : Nat) (i : Nat) (ar : Bool) (h : Heap)
    (oi : HObj) (hi : h.objs i = some oi) :
    observeF (fuel+1) (.ref i) ar h =
      (if oi.kind = HKind.vnode then (none, h)
       else
         let res : Option Nat × Heap :=
           match oi.ob with
           | some d => (some d, h)
           | none =>
             if h.shouldObserve && (oi.kind = HKind.arrK || oi.kind = HKind.plain)
                 && oi.extensible && !oi.isVue then
               let d := h.nextDep
               let h1 := { (h.setObj i { oi with ob := some d }) with
                             nextDep := h.nextDep + 1 }
               let h2 := oi.children.foldl
                 (fun acc c => (observeF fuel c false acc).2) h1
               (some d, h2)
             else (none, h)
         match res with
         | (some d, h2) => (some d, if ar then h2.bumpVm i else h2)
         | r => r) := by
  rw [observeF_ref, hi]

/-- The `value instanceof VNode` early return. -/
theorem observeF_ref_vnode (fuel : Nat) (i : Nat) (ar : Bool) (h : Heap)
    (oi : HObj) (hi : h.objs i = some oi) (hvn : oi.kind = HKind.vnode) :
    observeF (fuel+1) (.ref i) ar h = (none, h) := by
  rw [observeF_ref_some fuel i ar h oi hi, if_pos hvn]

/-- An already-observed value: the existing Observer is returned as is
(plus the root-data `vmCount` bump). -/
theorem observeF_ref_existing (fuel : Nat) (i : Nat) (ar : Bool) (h : Heap)
    (oi : HObj) (d : Nat) (hi : h.objs i = some oi)
    (hvn : ¬(oi.kind = HKind.vnode)) (hob : oi.ob = some d) :
    observeF (fuel+1) (.ref i) ar h =
      (some d, if ar then h.bumpVm i else h) := by
  rw [observeF_ref_some fuel i ar h oi hi, if_neg hvn, hob]

/-- A fresh `new Observer(value)`: the object is marked with the next dep
id, the counter advances, and the contents are walked. -/
theorem observeF_ref_mk (fuel : Nat) (i : Nat) (ar : Bool) (h : Heap)
    (oi : HObj) (hi : h.objs i = some oi)
    (hvn : ¬(oi.kind = HKind.vnode)) (hob : oi.ob = none)
    (hcnd : (h.shouldObserve && (oi.kind = HKind.arrK || oi.kind = HKind.plain)
        && oi.extensible && !oi.isVue) = true) :
    observeF (fuel+1) (.ref i) ar h =
      (some h.nextDep,
       if ar then
         (oi.children.foldl (fun acc c => (observeF fuel c false acc).2)
           { (h.setObj i { oi with ob := some h.nextDep }) with
               nextDep := h.nextDep + 1 }).bumpVm i
       else
         oi.children.foldl (fun acc c => (observeF fuel c false acc).2)
           { (h.setObj i { oi with ob := some h.nextDep }) with
               nextDep := h.nextDep + 1 }) := by
  rw [observeF_ref_some fuel i ar h oi hi, if_neg hvn, hob]
  show (let res : Option Nat × Heap :=
      if h.shouldObserve && (oi.kind = HKind.arrK || oi.kind = HKind.plain)
          && oi.extensible && !oi.isVue then
        let d := h.nextDep
        let h1 := { (h.setObj i { oi with ob := some d }) with
                      nextDep := h.nextDep + 1 }
        let h2 := oi.children.foldl
          (fun acc c => (observeF fuel c false acc).2) h1
        (some d, h2)
      else (none, h)
    match res with
    | (some d, h2) => (some d, if ar then h2.bumpVm i else h2)
    | r => r) = _
  rw [if_pos hcnd]

/-- The instrumentation conditions fail: nothing happens. -/
theorem observeF_ref_reject (fuel : Nat) (i : Nat) (ar : Bool) (h : Heap)
    (oi : HObj) (hi : h.objs i = some oi)
    (hvn : ¬(oi.kind = HKind.vnode)) (hob : oi.ob = none)
    (hcnd : (h.shouldObserve && (oi.kind = HKind.arrK || oi.kind = HKind.plain)
        && oi.extensible && !oi.isVue) = false) :
    observeF (fuel+1) (.ref i) ar h = (none, h) := by
  rw [observeF_ref_some fuel i ar h oi hi, if_neg hvn, hob]
  show (let res : Option Nat × Heap :=
      if h.shouldObserve && (oi.kind = HKind.arrK || oi.kind = HKind.plain)
          && oi.extensible && !oi.isVue then
        let d := h.nextDep
        let h1 := { (h.setObj i { oi with ob := some d }) with
                      nextDep := h.nextDep + 1 }
        let h2 := oi.children.foldl
          (fun acc c => (observeF fuel c false acc).2) h1
        (some d, h2)
      else (none, h)
    match res with
    | (some d, h2) => (some d, if ar then h2.bumpVm i else h2)
    | r => r) = _
  rw [if_neg (by rw [hcnd]; exact fun hcon => Bool.false_ne_true hcon)]

/-- `observe` never drops an object, changes its contents, or removes an
existing `__ob__`. -/
theorem observeF_preserves : ∀ (fuel : Nat) (v : JSVal) (ar : Bool) (h : Heap)
    (j : Nat) (o : HObj), h.objs j = some o →
    ∃ o2, ((observeF fuel v ar h).2).objs j = some o2 ∧ HPres o o2 := by
  intro fuel
  induction fuel with
  | zero =>
    intro v ar h j o hj
    exact ⟨o, hj, hpresRfl o⟩
  | succ fuel ih =>
    have hfold : ∀ (cs : List JSVal) (h : Heap) (j : Nat) (o : HObj),
        h.objs j = some o →
        ∃ o2, ((cs.foldl (fun acc c => (observeF fuel c false acc).2) h).objs j)
            = some o2 ∧ HPres o o2 := by
      intro cs
      induction cs with
      | nil => intro h j o hj; exact ⟨o, hj, hpresRfl o⟩
      | cons c cs ihc =>
        intro h j o hj
        obtain ⟨o1, h1, hp1⟩ := ih c false h j o hj
        obtain ⟨o2, h2, hp2⟩ := ihc _ j o1 h1
        exact ⟨o2, h2, hpresComp hp1 hp2⟩
    intro v ar h j o hj
    cases v with
    | undef => exact ⟨o, hj, hpresRfl o⟩
    | num n => exact ⟨o, hj, hpresRfl o⟩
    | nan => exact ⟨o, hj, hpresRfl o⟩
    | ref i =>
      cases hi : h.objs i with
      | none =>
        rw [observeF_ref_none fuel i ar h hi]
        exact ⟨o, hj, hpresRfl o⟩
      | some oi =>
        by_cases hvn : oi.kind = HKind.vnode
        · rw [observeF_ref_vnode fuel i ar h oi hi hvn]
          exact ⟨o, hj, hpresRfl o⟩
        · cases hob : oi.ob with
          | some d =>
            rw [observeF_ref_existing fuel i ar h oi d hi hvn hob]
            cases ar
            · exact ⟨o, hj, hpresRfl o⟩
            · exact bumpVm_pres h i j o hj
          | none =>
            by_cases hcnd : (h.shouldObserve && (oi.kind = HKind.arrK
                || oi.kind = HKind.plain) && oi.extensible && !oi.isVue) = true
            · rw [observeF_ref_mk fuel i ar h oi hi hvn hob hcnd]
              have hstep : ∃ o1, ({ (h.setObj i { oi with ob := some h.nextDep })
                  with nextDep := h.nextDep + 1 } : Heap).objs j = some o1 ∧
                  HPres o o1 := by
                by_cases hij : j = i
                · subst hij
                  rw [hj] at hi
                  injection hi with hoi
                  subst hoi
                  refine ⟨{ o with ob := some h.nextDep }, ?_, ?_⟩
                  · show (h.setObj j { o with ob := some h.nextDep }).objs j = _
                    rw [setObj_objs, if_pos rfl]
                  · refine ⟨rfl, rfl, rfl, rfl, rfl, fun d hd => ?_⟩
                    rw [hob] at hd
                    cases hd
                · refine ⟨o, ?_, hpresRfl o⟩
                  show (h.setObj i { oi with ob := some h.nextDep }).objs j
                    = some o
                  rw [setObj_objs, if_neg hij]
                  exact hj
              obtain ⟨o1, h1l, hp1⟩ := hstep
              obtain ⟨o2, h2l, hp2⟩ := hfold oi.children _ j o1 h1l
              cases ar
              · exact ⟨o2, h2l, hpresComp hp1 hp2⟩
              · obtain ⟨o3, h3l, hp3⟩ := bumpVm_pres _ i j o2 h2l
                exact ⟨o3, h3l, hpresComp (hpresComp hp1 hp2) hp3⟩
            · rw [observeF_ref_reject fuel i ar h oi hi hvn hob
                (by simpa using hcnd)]
              exact ⟨o, hj, hpresRfl o⟩

/-- Fold form of `observeF_preserves`, matching `observeArray` and the
inserted-elements loop of the array wrappers. -/
theorem observeFold_preserves (fuel : Nat) :
    ∀ (cs : List JSVal) (h : Heap) (j : Nat) (o : HObj),
    h.objs j = some o →
    ∃ o2, ((cs.foldl (fun acc c => (observeF fuel c false acc).2) h).objs j)
        = some o2 ∧ HPres o o2 := by
  intro cs
  induction cs with
  | nil => intro h j o hj; exact ⟨o, hj, hpresRfl o⟩
  | cons c cs ihc =>
    intro h j o hj
    obtain ⟨o1, h1, hp1⟩ := observeF_preserves fuel c false h j o hj
    obtain ⟨o2, h2, hp2⟩ := ihc _ j o1 h1
    exact ⟨o2, h2, hpresComp hp1 hp2⟩

/-- A fresh `observe` of an unobserved plain object or array: a new
Observer is created around the next dep id, and the object carries it
afterwards with its contents untouched. -/
theorem observeF_new (fuel : Nat) (i : Nat) (o : HObj) (h : Heap)
    (hlook : h.objs i = some o) (hob : o.ob = none)
    (hso : h.shouldObserve = true)
    (hkind : o.kind = HKind.arrK ∨ o.kind = HKind.plain)
    (hext : o.extensible = true) (hvue : o.isVue = false) :
    (observeF (fuel+1) (.ref i) false h).1 = some h.nextDep ∧
    ∃ o2, ((observeF (fuel+1) (.ref i) false h).2).objs i = some o2 ∧
      o2.ob = some h.nextDep ∧ o2.children = o.children ∧
      o2.kind = o.kind := by
  have hvn : ¬(o.kind = HKind.vnode) := by
    rcases hkind with hk | hk <;> rw [hk] <;> intro hcon <;> cases hcon
  have hcnd : (h.shouldObserve && (o.kind = HKind.arrK || o.kind = HKind.plain)
      && o.extensible && !o.isVue) = true := by
    rw [hso, hext, hvue]
    rcases hkind with hk | hk <;> rw [hk] <;> rfl
  rw [observeF_ref_mk fuel i false h o hlook hvn hob hcnd]
  refine ⟨rfl, ?_⟩
  have hstep : ({ (h.setObj i { o with ob := some h.nextDep })
      with nextDep := h.nextDep + 1 } : Heap).objs i =
      some { o with ob := some h.nextDep } := by
    show (h.setObj i { o with ob := some h.nextDep }).objs i = _
    rw [setObj_objs, if_pos rfl]
  obtain ⟨o2, h2l, hp2⟩ := observeFold_preserves fuel o.children _ i _ hstep
  exact ⟨o2, h2l, hp2.2.2.2.2.2 h.nextDep rfl, hp2.2.2.2.2.1, hp2.1⟩

/-- Self-comparison under `===`: only `NaN` differs from itself. -/
theorem jsEq_self_iff (v : JSVal) : jsEq v v = false ↔ v = JSVal.nan := by
  cases v <;> simp [jsEq]

/-- C4: the reactive setter installed by `defineReactive` over a plain
data property (no pre-existing accessors, not shallow): assigning an
identical value — or NaN over NaN — is a complete no-op that does not
notify; assigning a differing value stores it, observes it (a plain
object or array becomes observed), and notifies the property's dep
exactly once. -/
theorem reactive_setter_spec (fuel : Nat) (p : PropS) (h : Heap)
    (newVal : JSVal) (cs : Bool)
    (hg : p.hasGetter = false) (hs : p.hasSetter = false)
    (hsh : p.shallow = false) :
    ((jsEq newVal p.backingVal = true ∨
        (newVal = JSVal.nan ∧ p.backingVal = JSVal.nan)) →
      reactiveSet fuel p h newVal cs = (p, h)) ∧
    (jsEq newVal p.backingVal = false →
      ¬(newVal = JSVal.nan ∧ p.backingVal = JSVal.nan) →
      ((reactiveSet fuel p h newVal cs).1.backingVal = newVal ∧
       (reactiveSet fuel p h newVal cs).1.notifies = p.notifies + 1 ∧
       (reactiveSet fuel p h newVal cs).1.childOb =
          (observeF fuel newVal false h).1 ∧
       (reactiveSet fuel p h newVal cs).2 = (observeF fuel newVal false h).2 ∧
       (∀ f2 i oi, fuel = f2 + 1 → newVal = JSVal.ref i →
          h.objs i = some oi → oi.ob = none → h.shouldObserve = true →
          (oi.kind = HKind.arrK ∨ oi.kind = HKind.plain) →
          oi.extensible = true → oi.isVue = false →
          (reactiveSet fuel p h newVal cs).1.childOb = some h.nextDep ∧
          ∃ o2, ((reactiveSet fuel p h newVal cs).2).objs i = some o2 ∧
            o2.ob = some h.nextDep))) := by
  constructor
  · rintro (hcase | ⟨hn1, hn2⟩)
    · unfold reactiveSet
      simp [hg, hcase]
    · unfold reactiveSet
      simp [hg, hn1, hn2, jsEq]
  · intro hdiff hnn
    have hc2 : (!(jsEq newVal newVal) && !(jsEq p.backingVal p.backingVal))
        = false := by
      by_cases h1 : newVal = JSVal.nan
      · by_cases h2 : p.backingVal = JSVal.nan
        · exact absurd ⟨h1, h2⟩ hnn
        · have hv : ¬(jsEq p.backingVal p.backingVal = false) :=
            fun hcon => h2 ((jsEq_self_iff p.backingVal).mp hcon)
          simp only [Bool.not_eq_false] at hv
          simp [hv]
      · have hv : ¬(jsEq newVal newVal = false) :=
          fun hcon => h1 ((jsEq_self_iff newVal).mp hcon)
        simp only [Bool.not_eq_false] at hv
        simp [hv]
    have hred : reactiveSet fuel p h newVal cs =
        ({ (if cs then { p with warns := p.warns + 1 } else p) with
            backingVal := newVal,
            childOb := (observeF fuel newVal false h).1,
            notifies := p.notifies + 1 },
         (observeF fuel newVal false h).2) := by
      unfold reactiveSet
      by_cases hcs : cs = true <;> simp [hg, hs, hsh, hdiff, hc2, hcs]
    refine ⟨by rw [hred], by rw [hred], by rw [hred], by rw [hred], ?_⟩
    intro f2 i oi hf hv hoi hob hso hkind hext hvue
    subst hf
    subst hv
    obtain ⟨hfst, o2, ho2, hobd⟩ :=
      observeF_new f2 i oi h hoi hob hso hkind hext hvue
    refine ⟨?_, o2, ?_, hobd.1⟩
    · rw [hred]
      show (observeF (f2+1) (JSVal.ref i) false h).1 = some h.nextDep
      exact hfst
    · rw [hred]
      exact ho2

theorem reactive_setter_spec_witness :
    (reactiveSet 1 ({} : PropS)
        { objs := fun j => if j = 1 then some { kind := HKind.plain } else none }
        JSVal.undef false =
      (({} : PropS),
       ({ objs := fun j => if j = 1 then some { kind := HKind.plain } else none }
         : Heap))) ∧
    ((reactiveSet 1 ({} : PropS)
        { objs := fun j => if j = 1 then some { kind := HKind.plain } else none }
        (JSVal.ref 1) false).1.notifies = ({} : PropS).notifies + 1 ∧
     (reactiveSet 1 ({} : PropS)
        { objs := fun j => if j = 1 then some { kind := HKind.plain } else none }
        (JSVal.ref 1) false).1.childOb = some 0) := by
  have h1 := (reactive_setter_spec 1 ({} : PropS)
    { objs := fun j => if j = 1 then some { kind := HKind.plain } else none }
    JSVal.undef false rfl rfl rfl).1 (Or.inl (by decide))
  have h2 := (reactive_setter_spec 1 ({} : PropS)
    { objs := fun j => if j = 1 then some { kind := HKind.plain } else none }
    (JSVal.ref 1) false rfl rfl rfl).2 (by decide) (by decide)
  have h3 := h2.2.2.2.2 0 1 { kind := HKind.plain } rfl rfl (by decide)
    (by decide) (by decide) (Or.inr (by decide)) (by decide) (by decide)
  exact ⟨h1, h2.2.1, h3.1⟩

/-- Unfolding of `mutator` on an observed array. -/
theorem mutator_eq (original : List JSVal → List JSVal → List JSVal × JSVal)
    (method : ArrMethod) (fuel : Nat) (selfId : Nat) (args : List JSVal)
    (h : Heap) (o : HObj) (d : Nat)
    (hl : h.objs selfId = some o) (hob : o.ob = some d) :
    mutator original method fuel selfId args h =
      ((match (match method with
          | .push => some args
          | .unshift => some args
          | .splice => some (args.drop 2)
          | _ => (none : Option (List JSVal))) with
        | some ins => ins.foldl (fun acc c => (observeF fuel c false acc).2)
            (h.setObj selfId { o with children := (original o.children args).1 })
        | none =>
            h.setObj selfId { o with children := (original o.children args).1 }),
       (original o.children args).2, [d]) := by
  unfold mutator
  rw [hl]
  show (let nr := original o.children args
    let h1 := h.setObj selfId { o with children := nr.1 }
    match o.ob with
    | none => (h1, nr.2, [])
    | some d =>
      let inserted : Option (List JSVal) :=
        match method with
        | .push => some args
        | .unshift => some args
        | .splice => some (args.drop 2)
        | _ => none
      let h2 := match inserted with
        | some ins => ins.foldl (fun acc c => (observeF fuel c false acc).2) h1
        | none => h1
      (h2, nr.2, [d])) = _
  rw [hob]

/-- C7: exactly the seven methods of `methodsToPatch` are replaced; each
wrapper performs the native operation first and returns its result,
observes the newly inserted elements (the arguments of push/unshift, the
third-and-later arguments of splice), and notifies the array's own
Observer's dep exactly once; concretely, `push(item)` on an observed array
appends the item, returns the new length, notifies that array's dep once,
and makes a plain-object item observed. -/
theorem array_mutator_spec :
    (methodsToPatch =
      [ArrMethod.push, ArrMethod.pop, ArrMethod.shift, ArrMethod.unshift,
       ArrMethod.splice, ArrMethod.sort, ArrMethod.reverse]) ∧
    (∀ (original : List JSVal → List JSVal → List JSVal × JSVal)
       (method : ArrMethod) (fuel selfId : Nat) (args : List JSVal)
       (h : Heap) (o : HObj) (d : Nat),
       h.objs selfId = some o → o.ob = some d →
       ((mutator original method fuel selfId args h).2.1 =
          (original o.children args).2 ∧
        (mutator original method fuel selfId args h).2.2 = [d] ∧
        (∃ o2, ((mutator original method fuel selfId args h).1).objs selfId
            = some o2 ∧
          o2.children = (original o.children args).1 ∧ o2.ob = some d))) ∧
    (∀ (fuel selfId : Nat) (item : JSVal) (h : Heap) (o : HObj) (d : Nat)
       (i : Nat) (oi : HObj),
       h.objs selfId = some o → o.ob = some d →
       h.objs i = some oi → oi.ob = none → item = JSVal.ref i →
       i ≠ selfId → h.shouldObserve = true →
       (oi.kind = HKind.arrK ∨ oi.kind = HKind.plain) →
       oi.extensible = true → oi.isVue = false →
       ((mutator nativePush .push (fuel+1) selfId [item] h).2.1 =
          JSVal.num (o.children.length + 1) ∧
        (mutator nativePush .push (fuel+1) selfId [item] h).2.2 = [d] ∧
        (∃ o2, ((mutator nativePush .push (fuel+1) selfId [item] h).1).objs
            selfId = some o2 ∧ o2.children = o.children ++ [item]) ∧
        (∃ oi2, ((mutator nativePush .push (fuel+1) selfId [item] h).1).objs i
            = some oi2 ∧ oi2.ob.isSome = true))) := by
  refine ⟨rfl, ?_, ?_⟩
  · intro original method fuel selfId args h o d hl hob
    rw [mutator_eq original method fuel selfId args h o d hl hob]
    refine ⟨rfl, rfl, ?_⟩
    have hself : (h.setObj selfId
        { o with children := (original o.children args).1 }).objs selfId =
        some { o with children := (original o.children args).1 } := by
      rw [setObj_objs, if_pos rfl]
    cases hins : (match method with
        | ArrMethod.push => some args
        | ArrMethod.unshift => some args
        | ArrMethod.splice => some (args.drop 2)
        | _ => (none : Option (List JSVal))) with
    | none =>
      exact ⟨{ o with children := (original o.children args).1 }, hself,
        rfl, hob⟩
    | some ins =>
      obtain ⟨o2, ho2, hp⟩ := observeFold_preserves fuel ins _ selfId _ hself
      exact ⟨o2, ho2, hp.2.2.2.2.1, hp.2.2.2.2.2 d hob⟩
  · intro fuel selfId item h o d i oi hl hob hoi hoiob hitem hne hso hkind
      hext hvue
    rw [mutator_eq nativePush .push (fuel+1) selfId [item] h o d hl hob]
    have hnat : nativePush o.children [item] =
        (o.children ++ [item], JSVal.num (o.children.length + 1)) := rfl
    have hself : (h.setObj selfId
        { o with children := (nativePush o.children [item]).1 }).objs selfId =
        some { o with children := (nativePush o.children [item]).1 } := by
      rw [setObj_objs, if_pos rfl]
    refine ⟨rfl, rfl, ?_, ?_⟩
    · obtain ⟨o2, ho2, hp⟩ :=
        observeFold_preserves (fuel+1) [item] _ selfId _ hself
      exact ⟨o2, ho2, hp.2.2.2.2.1⟩
    · show ∃ oi2, (([item].foldl (fun acc c => (observeF (fuel+1) c false acc).2)
        (h.setObj selfId
          { o with children := (nativePush o.children [item]).1 })).objs i)
          = some oi2 ∧ oi2.ob.isSome = true
      subst hitem
      have hoi1 : (h.setObj selfId
          { o with children := (nativePush o.children [JSVal.ref i]).1 }).objs i
          = some oi := by
        rw [setObj_objs, if_neg hne]
        exact hoi
      have hso1 : (h.setObj selfId
          { o with children := (nativePush o.children [JSVal.ref i]).1 }
            : Heap).shouldObserve = true := hso
      obtain ⟨_, oi2, hoi2, hobd, _⟩ :=
        observeF_new fuel i oi _ hoi1 hoiob hso1 hkind hext hvue
      refine ⟨oi2, ?_, ?_⟩
      · show ((observeF (fuel+1) (JSVal.ref i) false _).2).objs i = some oi2
        exact hoi2
      · rw [hobd]
        rfl

theorem array_mutator_spec_witness :
    ((mutator nativePush .push 1 0 [JSVal.ref 1]
        { objs := fun j => if j = 0 then
            some { kind := HKind.arrK, ob := some 7,
                   children := [JSVal.num 0] }
          else if j = 1 then some { kind := HKind.plain } else none }).2.1 =
      JSVal.num 2 ∧
     (mutator nativePush .push 1 0 [JSVal.ref 1]
        { objs := fun j => if j = 0 then
            some { kind := HKind.arrK, ob := some 7,
                   children := [JSVal.num 0] }
          else if j = 1 then some { kind := HKind.plain } else none }).2.2 =
      [7] ∧
     (∃ o2, ((mutator nativePush .push 1 0 [JSVal.ref 1]
        { objs := fun j => if j = 0 then
            some { kind := HKind.arrK, ob := some 7,
                   children := [JSVal.num 0] }
          else if j = 1 then some { kind := HKind.plain } else none }).1).objs 0
          = some o2 ∧ o2.children = [JSVal.num 0] ++ [JSVal.ref 1]) ∧
     (∃ oi2, ((mutator nativePush .push 1 0 [JSVal.ref 1]
        { objs := fun j => if j = 0 then
            some { kind := HKind.arrK, ob := some 7,
                   children := [JSVal.num 0] }
          else if j = 1 then some { kind := HKind.plain } else none }).1).objs 1
          = some oi2 ∧ oi2.ob.isSome = true)) := by
  have h := array_mutator_spec.2.2 0 0 (JSVal.ref 1)
    { objs := fun j => if j = 0 then
        some { kind := HKind.arrK, ob := some 7, children := [JSVal.num 0] }
      else if j = 1 then some { kind := HKind.plain } else none }
    { kind := HKind.arrK, ob := some 7, children := [JSVal.num 0] } 7 1
    { kind := HKind.plain } (by decide) (by decide) (by decide) (by decide)
    rfl (by decide) rfl (Or.inr rfl) rfl rfl
  exact ⟨h.1, h.2.1, h.2.2.1, h.2.2.2⟩

/-! ## Deep traversal (`traverse` / `_traverse`): reduction lemmas -/

theorem trF_zero (h : Heap) (v : JSVal) (seen : Finset Nat) :
    trF h 0 v seen = none := rfl

theorem trF_prim_undef (h : Heap) (fuel : Nat) (seen : Finset Nat) :
    trF h (fuel+1) JSVal.undef seen = some (seen, []) := rfl

theorem trF_prim_num (h : Heap) (fuel : Nat) (n : Int) (seen : Finset Nat) :
    trF h (fuel+1) (JSVal.num n) seen = some (seen, []) := rfl

theorem trF_prim_nan (h : Heap) (fuel : Nat) (seen : Finset Nat) :
    trF h (fuel+1) JSVal.nan seen = some (seen, []) := rfl

theorem trStep_none (h : Heap) (fuel : Nat) (c : JSVal) :
    trStep h fuel none c = none := rfl

theorem trStep_some_none (h : Heap) (fuel : Nat) (sl : Finset Nat × List Nat)
    (c : JSVal) (htr : trF h fuel c sl.1 = none) :
    trStep h fuel (some sl) c = none := by
  show (match trF h fuel c sl.1 with
        | none => none
        | some sl2 => some (sl2.1, sl.2 ++ sl2.2)) = none
  rw [htr]

theorem trStep_some_some (h : Heap) (fuel : Nat)
    (sl sl2 : Finset Nat × List Nat) (c : JSVal)
    (htr : trF h fuel c sl.1 = some sl2) :
    trStep h fuel (some sl) c = some (sl2.1, sl.2 ++ sl2.2) := by
  show (match trF h fuel c sl.1 with
        | none => none
        | some sl2 => some (sl2.1, sl.2 ++ sl2.2)) = some (sl2.1, sl.2 ++ sl2.2)
  rw [htr]

theorem foldl_trStep_none (h : Heap) (fuel : Nat) (cs : List JSVal) :
    cs.foldl (trStep h fuel) none = none := by
  induction cs with
  | nil => rfl
  | cons c cs ih =>
    rw [List.foldl_cons, trStep_none]
    exact ih

theorem trF_ref_eq (h : Heap) (fuel i : Nat) (seen : Finset Nat) (oi : HObj)
    (hi : h.objs i = some oi) :
    trF h (fuel+1) (JSVal.ref i) seen =
      (if oi.frozen || oi.kind = HKind.vnode then some (seen, [])
       else
         match oi.ob with
         | some d =>
           if d ∈ seen then some (seen, [])
           else oi.children.reverse.foldl (trStep h fuel)
             (some (insert d seen, [d]))
         | none => oi.children.reverse.foldl (trStep h fuel)
             (some (seen, []))) := by
  show (match h.objs i with
        | none => some (seen, [])
        | some o =>
          if o.frozen || o.kind = HKind.vnode then some (seen, [])
          else
            match o.ob with
            | some d =>
              if d ∈ seen then some (seen, [])
              else
                o.children.reverse.foldl
                  (fun acc c =>
                    match acc with
                    | none => none
                    | some sl =>
                      match trF h fuel c sl.1 with
                      | none => none
                      | some sl2 => some (sl2.1, sl.2 ++ sl2.2))
                  (some (insert d seen, [d]))
            | none =>
              o.children.reverse.foldl
                (fun acc c =>
                  match acc with
                  | none => none
                  | some sl =>
                    match trF h fuel c sl.1 with
                    | none => none
                    | some sl2 => some (sl2.1, sl.2 ++ sl2.2))
                (some (seen, []))) = _
  rw [hi]
  exact rfl

theorem trF_ref_missing (h : Heap) (fuel i : Nat) (seen : Finset Nat)
    (hi : h.objs i = none) :
    trF h (fuel+1) (JSVal.ref i) seen = some (seen, []) := by
  show (match h.objs i with
        | none => some (seen, [])
        | some o =>
          if o.frozen || o.kind = HKind.vnode then some (seen, [])
          else
            match o.ob with
            | some d =>
              if d ∈ seen then some (seen, [])
              else
                o.children.reverse.foldl
                  (fun acc c =>
                    match acc with
                    | none => none
                    | some sl =>
                      match trF h fuel c sl.1 with
                      | none => none
                      | some sl2 => some (sl2.1, sl.2 ++ sl2.2))
                  (some (insert d seen, [d]))
            | none =>
              o.children.reverse.foldl
                (fun acc c =>
                  match acc with
                  | none => none
                  | some sl =>
                    match trF h fuel c sl.1 with
                    | none => none
                    | some sl2 => some (sl2.1, sl.2 ++ sl2.2))
                (some (seen, []))) = some (seen, [])
  rw [hi]

theorem trF_skip (h : Heap) (fuel i : Nat) (seen : Finset Nat) (oi : HObj)
    (hi : h.objs i = some oi)
    (hsk : (oi.frozen || decide (oi.kind = HKind.vnode)) = true) :
    trF h (fuel+1) (JSVal.ref i) seen = some (seen, []) := by
  rw [trF_ref_eq h fuel i seen oi hi]
  exact if_pos hsk

theorem trF_seen (h : Heap) (fuel i : Nat) (seen : Finset Nat) (oi : HObj)
    (d : Nat) (hi : h.objs i = some oi)
    (hsk : (oi.frozen || decide (oi.kind = HKind.vnode)) = false)
    (hob : oi.ob = some d) (hd : d ∈ seen) :
    trF h (fuel+1) (JSVal.ref i) seen = some (seen, []) := by
  rw [trF_ref_eq h fuel i seen oi hi, if_neg (by simp [hsk]), hob]
  show (if d ∈ seen then some (seen, [])
        else oi.children.reverse.foldl (trStep h fuel)
          (some (insert d seen, [d]))) = some (seen, [])
  rw [if_pos hd]

theorem trF_descend (h : Heap) (fuel i : Nat) (seen : Finset Nat) (oi : HObj)
    (d : Nat) (hi : h.objs i = some oi)
    (hsk : (oi.frozen || decide (oi.kind = HKind.vnode)) = false)
    (hob : oi.ob = some d) (hd : d ∉ seen) :
    trF h (fuel+1) (JSVal.ref i) seen =
      oi.children.reverse.foldl (trStep h fuel)
        (some (insert d seen, [d])) := by
  rw [trF_ref_eq h fuel i seen oi hi, if_neg (by simp [hsk]), hob]
  show (if d ∈ seen then some (seen, [])
        else oi.children.reverse.foldl (trStep h fuel)
          (some (insert d seen, [d]))) =
    oi.children.reverse.foldl (trStep h fuel) (some (insert d seen, [d]))
  rw [if_neg hd]

theorem trF_unobserved (h : Heap) (fuel i : Nat) (seen : Finset Nat)
    (oi : HObj) (hi : h.objs i = some oi)
    (hsk : (oi.frozen || decide (oi.kind = HKind.vnode)) = false)
    (hob : oi.ob = none) :
    trF h (fuel+1) (JSVal.ref i) seen =
      oi.children.reverse.foldl (trStep h fuel) (some (seen, [])) := by
  rw [trF_ref_eq h fuel i seen oi hi, if_neg (by simp [hsk]), hob]

/-! ## Deep traversal: the visited set only grows -/

theorem trF_mono (h : Heap) :
    ∀ fuel v seen sl, trF h fuel v seen = some sl → seen ⊆ sl.1 := by
  intro fuel
  induction fuel with
  | zero =>
    intro v seen sl hf
    rw [trF_zero] at hf
    exact Option.noConfusion hf
  | succ fuel ih =>
    have hB : ∀ (cs : List JSVal) (st sl : Finset Nat × List Nat),
        cs.foldl (trStep h fuel) (some st) = some sl → st.1 ⊆ sl.1 := by
      intro cs
      induction cs with
      | nil =>
        intro st sl hf
        rw [List.foldl_nil] at hf
        injection hf with h1
        subst h1
        exact Finset.Subset.refl _
      | cons c cs ihc =>
        intro st sl hf
        rw [List.foldl_cons] at hf
        cases htr : trF h fuel c st.1 with
        | none =>
          rw [trStep_some_none h fuel st c htr, foldl_trStep_none] at hf
          exact Option.noConfusion hf
        | some sl1 =>
          rw [trStep_some_some h fuel st sl1 c htr] at hf
          exact Finset.Subset.trans (ih c st.1 sl1 htr)
            (ihc (sl1.1, st.2 ++ sl1.2) sl hf)
    intro v seen sl hf
    cases v with
    | undef =>
      rw [trF_prim_undef] at hf
      injection hf with h1
      subst h1
      exact Finset.Subset.refl _
    | num n =>
      rw [trF_prim_num] at hf
      injection hf with h1
      subst h1
      exact Finset.Subset.refl _
    | nan =>
      rw [trF_prim_nan] at hf
      injection hf with h1
      subst h1
      exact Finset.Subset.refl _
    | ref i =>
      cases hi : h.objs i with
      | none =>
        rw [trF_ref_missing h fuel i seen hi] at hf
        injection hf with h1
        subst h1
        exact Finset.Subset.refl _
      | some oi =>
        cases hsk : (oi.frozen || decide (oi.kind = HKind.vnode)) with
        | true =>
          rw [trF_skip h fuel i seen oi hi hsk] at hf
          injection hf with h1
          subst h1
          exact Finset.Subset.refl _
        | false =>
          cases hob : oi.ob with
          | some d =>
            by_cases hd : d ∈ seen
            · rw [trF_seen h fuel i seen oi d hi hsk hob hd] at hf
              injection hf with h1
              subst h1
              exact Finset.Subset.refl _
            · rw [trF_descend h fuel i seen oi d hi hsk hob hd] at hf
              exact Finset.Subset.trans (Finset.subset_insert d seen)
                (hB _ _ _ hf)
          | none =>
            rw [trF_unobserved h fuel i seen oi hi hsk hob] at hf
            exact hB _ _ _ hf

/-! ## Deep traversal: the ghost log is duplicate-free

Every dep id logged by a call was fresh (not in the incoming visited set)
and is in the outgoing visited set, so no observed container is descended
into twice. -/

theorem trF_log (h : Heap) :
    ∀ fuel v seen sl, trF h fuel v seen = some sl →
      sl.2.Nodup ∧ ∀ x ∈ sl.2, x ∈ sl.1 ∧ x ∉ seen := by
  intro fuel
  induction fuel with
  | zero =>
    intro v seen sl hf
    rw [trF_zero] at hf
    exact Option.noConfusion hf
  | succ fuel ih =>
    have hB : ∀ (cs : List JSVal) (st sl : Finset Nat × List Nat)
        (seen0 : Finset Nat),
        seen0 ⊆ st.1 → st.2.Nodup → (∀ x ∈ st.2, x ∈ st.1 ∧ x ∉ seen0) →
        cs.foldl (trStep h fuel) (some st) = some sl →
        sl.2.Nodup ∧ ∀ x ∈ sl.2, x ∈ sl.1 ∧ x ∉ seen0 := by
      intro cs
      induction cs with
      | nil =>
        intro st sl seen0 _hsub hnd hmem hf
        rw [List.foldl_nil] at hf
        injection hf with h1
        subst h1
        exact ⟨hnd, hmem⟩
      | cons c cs ihc =>
        intro st sl seen0 hsub hnd hmem hf
        rw [List.foldl_cons] at hf
        cases htr : trF h fuel c st.1 with
        | none =>
          rw [trStep_some_none h fuel st c htr, foldl_trStep_none] at hf
          exact Option.noConfusion hf
        | some sl1 =>
          rw [trStep_some_some h fuel st sl1 c htr] at hf
          have hch := ih c st.1 sl1 htr
          have hmono := trF_mono h fuel c st.1 sl1 htr
          refine ihc (sl1.1, st.2 ++ sl1.2) sl seen0 ?_ ?_ ?_ hf
          · exact Finset.Subset.trans hsub hmono
          · exact hnd.append hch.1
              (fun x hx1 hx2 => (hch.2 x hx2).2 (hmem x hx1).1)
          · intro x hx
            rcases List.mem_append.mp hx with hx1 | hx2
            · exact ⟨hmono (hmem x hx1).1, (hmem x hx1).2⟩
            · exact ⟨(hch.2 x hx2).1,
                fun hxs => (hch.2 x hx2).2 (hsub hxs)⟩
    intro v seen sl hf
    cases v with
    | undef =>
      rw [trF_prim_undef] at hf
      injection hf with h1
      subst h1
      exact ⟨List.nodup_nil, fun x hx => absurd hx (List.not_mem_nil x)⟩
    | num n =>
      rw [trF_prim_num] at hf
      injection hf with h1
      subst h1
      exact ⟨List.nodup_nil, fun x hx => absurd hx (List.not_mem_nil x)⟩
    | nan =>
      rw [trF_prim_nan] at hf
      injection hf with h1
      subst h1
      exact ⟨List.nodup_nil, fun x hx => absurd hx (List.not_mem_nil x)⟩
    | ref i =>
      cases hi : h.objs i with
      | none =>
        rw [trF_ref_missing h fuel i seen hi] at hf
        injection hf with h1
        subst h1
        exact ⟨List.nodup_nil, fun x hx => absurd hx (List.not_mem_nil x)⟩
      | some oi =>
        cases hsk : (oi.frozen || decide (oi.kind = HKind.vnode)) with
        | true =>
          rw [trF_skip h fuel i seen oi hi hsk] at hf
          injection hf with h1
          subst h1
          exact ⟨List.nodup_nil, fun x hx => absurd hx (List.not_mem_nil x)⟩
        | false =>
          cases hob : oi.ob with
          | some d =>
            by_cases hd : d ∈ seen
            · rw [trF_seen h fuel i seen oi d hi hsk hob hd] at hf
              injection hf with h1
              subst h1
              exact ⟨List.nodup_nil,
                fun x hx => absurd hx (List.not_mem_nil x)⟩
            · rw [trF_descend h fuel i seen oi d hi hsk hob hd] at hf
              refine hB _ _ _ seen ?_ ?_ ?_ hf
              · exact Finset.subset_insert d seen
              · exact List.nodup_singleton d
              · intro x hx
                have hxd := List.mem_singleton.mp hx
                rw [hxd]
                exact ⟨Finset.mem_insert_self d seen, hd⟩
          | none =>
            rw [trF_unobserved h fuel i seen oi hi hsk hob] at hf
            refine hB _ _ _ seen ?_ ?_ ?_ hf
            · exact Finset.Subset.refl seen
            · exact List.nodup_nil
            · intro x hx
              exact absurd hx (List.not_mem_nil x)

/-! ## Deep traversal: termination on fully observed heaps

If every object of the heap is observed and all dep ids lie in the finite
set `D`, then `(D minus seen).card` strictly decreases at every descent, so
fuel exceeding that measure suffices. -/

theorem trF_total (h : Heap) (D : Finset Nat)
    (hobs : ∀ i o, h.objs i = some o → ∃ d, o.ob = some d ∧ d ∈ D) :
    ∀ fuel v seen, (D \ seen).card < fuel →
      (trF h fuel v seen).isSome = true := by
  intro fuel
  induction fuel with
  | zero =>
    intro v seen hc
    exact absurd hc (Nat.not_lt_zero _)
  | succ fuel ih =>
    have hB : ∀ (cs : List JSVal) (st : Finset Nat × List Nat),
        (D \ st.1).card < fuel →
        (cs.foldl (trStep h fuel) (some st)).isSome = true := by
      intro cs
      induction cs with
      | nil =>
        intro st _hc
        rfl
      | cons c cs ihc =>
        intro st hc
        rw [List.foldl_cons]
        cases htr : trF h fuel c st.1 with
        | none =>
          have h1 := ih c st.1 hc
          rw [htr] at h1
          simp at h1
        | some sl1 =>
          rw [trStep_some_some h fuel st sl1 c htr]
          apply ihc
          show (D \ sl1.1).card < fuel
          have hsub : st.1 ⊆ sl1.1 := trF_mono h fuel c st.1 sl1 htr
          have h2 : (D \ sl1.1).card ≤ (D \ st.1).card :=
            Finset.card_le_card
              (Finset.sdiff_subset_sdiff (Finset.Subset.refl D) hsub)
          omega
    intro v seen hc
    cases v with
    | undef => rw [trF_prim_undef]; rfl
    | num n => rw [trF_prim_num]; rfl
    | nan => rw [trF_prim_nan]; rfl
    | ref i =>
      cases hi : h.objs i with
      | none => rw [trF_ref_missing h fuel i seen hi]; rfl
      | some oi =>
        cases hsk : (oi.frozen || decide (oi.kind = HKind.vnode)) with
        | true => rw [trF_skip h fuel i seen oi hi hsk]; rfl
        | false =>
          obtain ⟨d, hob, hdD⟩ := hobs i oi hi
          by_cases hd : d ∈ seen
          · rw [trF_seen h fuel i seen oi d hi hsk hob hd]; rfl
          · rw [trF_descend h fuel i seen oi d hi hsk hob hd]
            apply hB
            show (D \ insert d seen).card < fuel
            have h1 : D \ insert d seen = (D \ seen).erase d := by
              ext a
              simp [Finset.mem_sdiff, Finset.mem_insert, Finset.mem_erase]
              tauto
            have h2 : d ∈ D \ seen := Finset.mem_sdiff.mpr ⟨hdD, hd⟩
            have h3 : 0 < (D \ seen).card := Finset.card_pos.mpr ⟨d, h2⟩
            rw [h1, Finset.card_erase_of_mem h2]
            omega

/-- A heap holding one unobserved plain object whose single own-key value
refers back to the object itself (in JS: `const o = \x7b}; o.self = o`,
never passed to `observe`): not frozen, not a VNode, and no `__ob__`, so
`_traverse` has no dep id to record in `seen` before recursing into it. -/
def hCycle : Heap :=
  { objs := fun i => if i = 0 then
      some { kind := HKind.plain, children := [JSVal.ref 0] } else none }

theorem trF_hCycle_none :
    ∀ fuel seen, trF hCycle fuel (JSVal.ref 0) seen = none := by
  intro fuel
  induction fuel with
  | zero =>
    intro seen
    rw [trF_zero]
  | succ fuel ih =>
    intro seen
    have hi : hCycle.objs 0 =
        some { kind := HKind.plain, children := [JSVal.ref 0] } := rfl
    rw [trF_unobserved hCycle fuel 0 seen _ hi (by decide) rfl]
    show List.foldl (trStep hCycle fuel) (some (seen, [])) [JSVal.ref 0] =
      none
    rw [List.foldl_cons,
      trStep_some_none hCycle fuel (seen, []) (JSVal.ref 0) (ih seen),
      List.foldl_nil]

/-- C9, counterexample: the claim promises termination for every value
"including object graphs containing reference cycles", but `_traverse`
records only observed containers (those with `__ob__`) in the visited set.
On a self-referencing container that has no `__ob__`, the recursion never
returns: no amount of fuel makes the embedded `traverse` produce a result,
which is exactly the JS recursion running forever (in practice a stack
overflow). -/
theorem traverse_unobserved_cycle_diverges :
    ¬ ∃ fuel, (traverseF hCycle fuel (JSVal.ref 0)).isSome = true := by
  rintro ⟨fuel, hf⟩
  unfold traverseF at hf
  rw [trF_hCycle_none fuel ∅] at hf
  simp at hf

/-- C9 (amended): for every value in a heap all of whose objects are
observed (every container carries an `__ob__`, its dep id drawn from the
finite set `D` — the situation the scheduler actually creates, since deep
watchers traverse values returned by reactive getters), `traverse`
terminates: fuel `D.card + 1` always suffices, the process-wide visited
set is empty again when the top-level call finishes (first component `∅`),
and the ghost log — the dep ids of the observed containers actually
descended into — is duplicate-free, i.e. each distinct observed container
is descended into at most once per top-level call. -/
theorem traverse_observed_terminates (h : Heap) (v : JSVal) (D : Finset Nat)
    (hobs : ∀ i o, h.objs i = some o → ∃ d, o.ob = some d ∧ d ∈ D) :
    ∃ log, traverseF h (D.card + 1) v = some (∅, log) ∧ log.Nodup := by
  have htot := trF_total h D hobs (D.card + 1) v ∅ (by
    have h0 : (D \ ∅).card = D.card := by rw [Finset.sdiff_empty]
    omega)
  cases hr : trF h (D.card + 1) v ∅ with
  | none =>
    rw [hr] at htot
    simp at htot
  | some sl =>
    have hnd := (trF_log h (D.card + 1) v ∅ sl hr).1
    refine ⟨sl.2, ?_, hnd⟩
    unfold traverseF
    rw [hr]

/-- A fully observed cyclic heap: the single object refers back to itself
but carries `__ob__` with dep id 3, as `observe` would have installed. -/
def hObsCycle : Heap :=
  { objs := fun i => if i = 0 then
      some { kind := HKind.plain, ob := some 3, children := [JSVal.ref 0] }
    else none }

/-- Witness for the amended C9 theorem: on the observed self-referencing
heap the hypothesis holds with `D = \x7b3}` and traversal terminates. -/
theorem traverse_observed_terminates_witness :
    (∀ i o, hObsCycle.objs i = some o →
      ∃ d, o.ob = some d ∧ d ∈ ({3} : Finset Nat)) ∧
    ∃ log, traverseF hObsCycle (({3} : Finset Nat).card + 1) (JSVal.ref 0) =
      some (∅, log) ∧ log.Nodup := by
  have hobs : ∀ i o, hObsCycle.objs i = some o →
      ∃ d, o.ob = some d ∧ d ∈ ({3} : Finset Nat) := by
    intro i o hio
    cases i with
    | zero =>
      have he : hObsCycle.objs 0 =
          some { kind := HKind.plain, ob := some 3,
                 children := [JSVal.ref 0] } := rfl
      rw [he] at hio
      injection hio with hh
      exact ⟨3, by rw [← hh], Finset.mem_singleton_self 3⟩
    | succ i =>
      have he : hObsCycle.objs (i+1) = none := rfl
      rw [he] at hio
      exact Option.noConfusion hio
  exact ⟨hobs,
    traverse_observed_terminates hObsCycle (JSVal.ref 0) {3} hobs⟩

end VueReactivity
